import Mathlib

/-!
# mktoken / cmptoken: passphrase-token generation and verification

A shallow embedding of the three Go programs of the repository:

* `src/cmd/mktoken/main.go`  (record generator),
* `src/cmd/cmptoken/main.go` (record verifier, with `parsePbdkf2Hash`),
* `src/main.go`              (the earlier single-file generator).

Conventions.  A Go `string` is a `List Char`; every delimiter the programs use
is ASCII, so splitting by characters and splitting by bytes agree.  A Go
`[]byte` is a `List Nat` whose elements are below 256.  A Go `int` is an `Int`
in the 64-bit range; `strconv.Atoi` reports a range error outside of it.  The
key-derivation function, the random source and the terminal are parameters.
A token file is the list of its lines; `bufio.Scanner` delivers them up to the
first line that does not fit its buffer of 64 KiB.
-/

namespace Mktoken

abbrev Str := List Char
abbrev Bytes := List Nat

/-- Every element of a byte slice is below 256. -/
def IsBytes (bs : Bytes) : Prop := ∀ b ∈ bs, b < 256

instance (bs : Bytes) : Decidable (IsBytes bs) := by
  unfold IsBytes; infer_instance

/-! ## Library functions used by the programs -/

/-- Go `strings.Split(s, sep)` for a one-character separator: the pieces of `s`
between the occurrences of `sep`; never the empty list. -/
def stringsSplit (sep : Char) : Str → List Str
  | [] => [[]]
  | c :: cs =>
    if c = sep then [] :: stringsSplit sep cs
    else
      match stringsSplit sep cs with
      | [] => [[c]]
      | p :: ps => (c :: p) :: ps

/-- Worker of `stringsReplaceAllEmpty`: `skip` characters of a match found
earlier are still to be dropped. -/
def stringsReplaceAllEmptyGo (old : Str) : Nat → Str → Str
  | _, [] => []
  | skip + 1, _ :: cs => stringsReplaceAllEmptyGo old skip cs
  | 0, c :: cs =>
    if old.isPrefixOf (c :: cs) then stringsReplaceAllEmptyGo old (old.length - 1) cs
    else c :: stringsReplaceAllEmptyGo old 0 cs

/-- Go `strings.ReplaceAll(s, old, "")` for a non-empty `old`: the
non-overlapping occurrences of `old`, found from the left, are removed. -/
def stringsReplaceAllEmpty (s old : Str) : Str := stringsReplaceAllEmptyGo old 0 s

/-- Errors of `strconv.Atoi`. -/
inductive AtoiError
  | badNumeral
  | outOfRange
  deriving DecidableEq, Repr

/-- Value of a decimal digit character. -/
def digitVal (c : Char) : Option Nat :=
  if 48 ≤ c.toNat ∧ c.toNat ≤ 57 then some (c.toNat - 48) else none

/-- Value of a string of decimal digits, accumulated from the left, without a
bound; `none` when a character is not a digit. -/
def parseDigits : Str → Nat → Option Nat
  | [], acc => some acc
  | c :: cs, acc =>
    match digitVal c with
    | some d => parseDigits cs (acc * 10 + d)
    | none => none

/-- Sign and magnitude part of the argument of `strconv.Atoi`. -/
def atoiSplitSign : Str → Bool × Str
  | [] => (false, [])
  | c :: cs => if c = '-' then (true, cs) else if c = '+' then (false, cs) else (false, c :: cs)

/-- Go `strconv.ParseUint(s, 10, 64)` on the text after the sign, with the
value `n` of the digits already read: a character that is not a digit is a
syntax error, and a value that leaves the range of `uint64` is a range error,
reported at the digit where it happens. -/
def parseUint : Str → Nat → Except AtoiError Nat
  | [], n => .ok n
  | c :: cs, n =>
    match digitVal c with
    | none => .error .badNumeral
    | some d =>
      if n ≥ (2 ^ 64 - 1) / 10 + 1 then .error .outOfRange
      else if n * 10 + d > 2 ^ 64 - 1 then .error .outOfRange
      else parseUint cs (n * 10 + d)

/-- Go `strconv.Atoi` with a 64-bit `int`: an optional sign followed by one or
more decimal digits, the value within `-2^63 .. 2^63 - 1`. -/
def strconvAtoi (s : Str) : Except AtoiError Int :=
  let sm := atoiSplitSign s
  match sm.2 with
  | [] => .error .badNumeral
  | d :: ds =>
    match parseUint (d :: ds) 0 with
    | .error e => .error e
    | .ok u =>
      if sm.1 then
        (if u ≤ 2 ^ 63 then .ok (-(u : Int)) else .error .outOfRange)
      else
        (if u < 2 ^ 63 then .ok (u : Int) else .error .outOfRange)

/-- The alphabet of `base64.StdEncoding`. -/
def b64Alphabet : Str :=
  "ABCDEFGHIJKLMNOPQRSTUVWXYZabcdefghijklmnopqrstuvwxyz0123456789+/".toList

/-- The encoder table: the character of a 6-bit value. -/
def b64Char (i : Nat) : Char := b64Alphabet.getD i 'A'

/-- The decode map: the 6-bit value of an alphabet character. -/
def b64Val (c : Char) : Option Nat :=
  if c ∈ b64Alphabet then some (b64Alphabet.indexOf c) else none

/-- Go `base64.StdEncoding.EncodeToString`. -/
def b64Encode : Bytes → Str
  | [] => []
  | [a] => [b64Char (a / 4), b64Char (a % 4 * 16), '=', '=']
  | [a, b] => [b64Char (a / 4), b64Char (a % 4 * 16 + b / 16), b64Char (b % 16 * 4), '=']
  | a :: b :: c :: rest =>
    b64Char (a / 4) :: b64Char (a % 4 * 16 + b / 16) :: b64Char (b % 16 * 4 + c / 64)
      :: b64Char (c % 64) :: b64Encode rest

/-- Decoding of the quanta of a base64 text from which the line breaks have
been dropped: four alphabet characters give three bytes; the last quantum may
be `xx==` (one byte) or `xxx=` (two bytes); anything else is corrupt input. -/
def b64DecodeQuanta : Str → Option Bytes
  | c0 :: c1 :: c2 :: c3 :: rest =>
    match b64Val c0, b64Val c1 with
    | some v0, some v1 =>
      match b64Val c2 with
      | some v2 =>
        match b64Val c3 with
        | some v3 =>
          (b64DecodeQuanta rest).map fun out =>
            (v0 * 4 + v1 / 16) :: (v1 % 16 * 16 + v2 / 4) :: (v2 % 4 * 64 + v3) :: out
        | none =>
          if c3 = '=' ∧ rest = [] then some [v0 * 4 + v1 / 16, v1 % 16 * 16 + v2 / 4]
          else none
      | none =>
        if c2 = '=' ∧ c3 = '=' ∧ rest = [] then some [v0 * 4 + v1 / 16] else none
    | _, _ => none
  | [] => some []
  | _ => none

/-- Go `base64.StdEncoding.DecodeString`: carriage returns and line feeds are
ignored, the rest is decoded quantum by quantum; `none` is a
`CorruptInputError`. -/
def b64Decode (s : Str) : Option Bytes :=
  b64DecodeQuanta (s.filter fun c => !(c = '\r' || c = '\n'))

/-- The digits of `%x`. -/
def hexAlphabet : Str := "0123456789abcdef".toList

/-- A lower-case hexadecimal digit. -/
def hexDigit (i : Nat) : Char := hexAlphabet.getD i '0'

/-- The verb `%x` of `fmt` applied to a byte slice: two lower-case hexadecimal
digits per byte. -/
def fmtHex : Bytes → Str
  | [] => []
  | b :: bs => hexDigit (b / 16) :: hexDigit (b % 16) :: fmtHex bs

/-- Digits of a natural number in a base of at most ten, most significant
first; `acc` holds the digits already produced. -/
def natDigitsGo (base : Nat) : Nat → Nat → Str → Str
  | 0, _, acc => acc
  | fuel + 1, n, acc =>
    if n / base = 0 then Char.ofNat (48 + n % base) :: acc
    else natDigitsGo base fuel (n / base) (Char.ofNat (48 + n % base) :: acc)

/-- Decimal numeral of a natural number. -/
def natDec (n : Nat) : Str := natDigitsGo 10 (n + 1) n []

/-- Go `strconv.FormatInt(n, 2)`: the binary numeral of an integer. -/
def fmtBinary (n : Int) : Str :=
  if n < 0 then '-' :: natDigitsGo 2 (n.natAbs + 1) n.natAbs []
  else natDigitsGo 2 (n.natAbs + 1) n.natAbs []

/-- The conversion `[]byte(s)`: the UTF-8 bytes of a string. -/
def strBytes (s : Str) : Bytes :=
  s.flatMap fun c => (String.utf8EncodeChar c).map UInt8.toNat

/-- The verb `%d` of `fmt` (and `strconv.Itoa`): the decimal numeral of an
integer, with a minus sign when negative. -/
def fmtInt (n : Int) : Str :=
  if n < 0 then '-' :: natDec n.natAbs else natDec n.natAbs

/-! ## `cmd/cmptoken`: the record decoder -/

/-- The literal tag `{X-PBDKF2}`. -/
def tag : Str := ['{', 'X', '-', 'P', 'B', 'D', 'K', 'F', '2', '}']

/-- The errors `parsePbdkf2Hash` returns, one constructor per `fmt.Errorf`. -/
inductive ParseError
  | invalidKeyLength (e : AtoiError)
  | unsupportedKeyLength (bits : Int)
  | invalidIterationCount (e : AtoiError)
  | cannotDecodeSalt
  | cannotDecodeDerivedKey
  deriving DecidableEq, Repr

/-- What a call of `parsePbdkf2Hash` does: it panics with an index out of
range, returns an error, or returns the five components. -/
inductive ParseResult
  | indexOutOfRange
  | error (e : ParseError)
  | ok (hashType : Str) (keyLength : Int) (iters : Int) (salt : Bytes) (derivedKey : Bytes)
  deriving DecidableEq, Repr

/-- The function `parsePbdkf2Hash` of `cmd/cmptoken/main.go`. -/
def parsePbdkf2Hash (line : Str) : ParseResult :=
  let parts := stringsSplit ':' line
  match parts[0]? with
  | none => .indexOutOfRange
  | some field0 =>
  let hashType0 := stringsReplaceAllEmpty field0 tag
  match (stringsSplit '+' hashType0)[1]? with
  | none => .indexOutOfRange
  | some bitsText =>
    match strconvAtoi bitsText with
    | .error e => .error (.invalidKeyLength e)
    | .ok keyBytes =>
      let keyLengthOpt : Option Int :=
        if keyBytes = 512 then some 64
        else if keyBytes = 256 then some 32
        else if keyBytes = 128 then some 16
        else none
      match keyLengthOpt with
      | none => .error (.unsupportedKeyLength keyBytes)
      | some keyLength =>
        match (stringsSplit '+' hashType0)[0]? with
        | none => .indexOutOfRange
        | some hashType =>
        match parts[1]? with
        | none => .indexOutOfRange
        | some itersText =>
          match strconvAtoi itersText with
          | .error e => .error (.invalidIterationCount e)
          | .ok iters =>
            match parts[2]? with
            | none => .indexOutOfRange
            | some saltText =>
              match b64Decode saltText with
              | none => .error .cannotDecodeSalt
              | some salt =>
                match parts[3]? with
                | none => .indexOutOfRange
                | some keyText =>
                  match b64Decode keyText with
                  | none => .error .cannotDecodeDerivedKey
                  | some derivedKey => .ok hashType keyLength iters salt derivedKey

/-- The line of the documented textual form. -/
def recordLine (h : Str) (bits : Int) (n : Int) (salt key : Bytes) : Str :=
  tag ++ h ++ ['+'] ++ fmtInt bits ++ [':'] ++ fmtInt n ++ [':'] ++ b64Encode salt ++ [':']
    ++ b64Encode key


/-! ## Environment of the workflows -/

/-- How a run of a program ends: `main` returns, `os.Exit` is called, or the
run panics. -/
inductive Termination
  | returned
  | exited (code : Nat)
  | panicked
  deriving DecidableEq, Repr

/-- The exit code of the process: 0 when `main` returns, the argument of
`os.Exit`, and 2 for a panic. -/
def Termination.exitCode : Termination → Nat
  | .returned => 0
  | .exited code => code
  | .panicked => 2

/-- The function `pbkdf2.Key` of `crypto/pbkdf2` instantiated with
`sha3.New512`: password, salt, iteration count, key length; `none` is the
error result. -/
abbrev KeyFn := Bytes → Bytes → Int → Int → Option Bytes

/-- The documented contract of `pbkdf2.Key`: a key that is returned has
`keyLength` bytes. -/
def KeyFn.LengthLaw (kdf : KeyFn) : Prop :=
  ∀ pw salt iter keyLength dk, kdf pw salt iter keyLength = some dk →
    (dk.length : Int) = keyLength

/-- A stand-in for `pbkdf2.Key` in concrete runs: an error for a key length
that is not positive, and otherwise `keyLength` bytes that depend on the
password, the salt and the iteration count. -/
def sampleKdf : KeyFn := fun pw salt iter keyLength =>
  if keyLength ≤ 0 then none
  else some (List.replicate keyLength.toNat ((pw.sum + salt.sum + iter.toNat) % 256))

/-- One call of `term.ReadPassword` on the remaining terminal input; when the
input is exhausted the call fails and the ignored error leaves an empty
slice. -/
def readPassword (stdin : List Bytes) : Bytes × List Bytes :=
  match stdin with
  | [] => ([], [])
  | entry :: rest => (entry, rest)

/-- Go `bufio.ScanLines`: a trailing carriage return of a line is dropped. -/
def dropCR (l : Str) : Str :=
  if l.getLast? = some '\r' then l.dropLast else l

/-- The constant `bufio.MaxScanTokenSize`, the size of the buffer of a
`bufio.Scanner` made by `bufio.NewScanner`. -/
def maxScanTokenSize : Nat := 64 * 1024

/-- The number of bytes of a string, `len(s)`. -/
def byteLen (s : Str) : Nat := (strBytes s).length

/-- The lines of a file: the pieces of its content between line feeds, without
an empty piece after the last line feed. -/
def fileLines (content : Str) : List Str :=
  let pieces := stringsSplit '\n' content
  if pieces.getLast? = some [] then pieces.dropLast else pieces

/-- What `scanner.Scan()` and `scanner.Text()` deliver for the lines of a
file: each line without its trailing carriage return, up to the first line
that does not fit the buffer together with its line feed, that is a line of
`maxScanTokenSize` bytes or more.  At such a line `Scan` returns false with
`ErrTooLong`, which `cmd/cmptoken` never reads, and neither that line nor a
later one is delivered. -/
def scannerDelivers (store : List Str) : List Str :=
  (store.takeWhile fun l => decide (byteLen l < maxScanTokenSize)).map dropCR

/-- The lines `bufio.Scanner` delivers for a file content. -/
def bufioScanLines (content : Str) : List Str :=
  scannerDelivers (fileLines content)

/-! ## `cmd/cmptoken`: the verification workflow -/

/-- What `cmd/cmptoken` prints, one constructor per print statement. -/
inductive CmpOut
  | errorOpening
  | promptPassphrase
  | newline
  | dbgEntered (input : Bytes)
  | dbgLine (line : Str)
  | errorParsing (e : ParseError)
  | dbgComponents (hashType : Str) (keyLength iters : Int) (salt derivedKey : Bytes)
  | dbgUsing (hashType : Str) (keyLength iters : Int)
  | dbgDerived (dk : Bytes)
  | tokenMatches
  deriving DecidableEq, Repr

/-- The print of `Error parsing line:`. -/
def CmpOut.isErrorParsing : CmpOut → Bool
  | .errorParsing _ => true
  | _ => false

/-- Output and termination of a run of `cmd/cmptoken`, and the number of
lines the scanner has delivered to the loop. -/
structure CmpRun where
  out : List CmpOut
  term : Termination
  scanned : Nat
  deriving DecidableEq, Repr

/-- The `for scanner.Scan()` loop of `main` in `cmd/cmptoken/main.go` over
the lines the scanner delivers. -/
def scanLoop (kdf : KeyFn) (debug : Bool) (input : Bytes) :
    List Str → List CmpOut → Nat → CmpRun
  | [], out, scanned => { out := out, term := .returned, scanned := scanned }
  | line :: rest, out, scanned =>
    if line = [] ∨ line.head? = some '#' then
      scanLoop kdf debug input rest out (scanned + 1)
    else
      let out1 := if debug then out ++ [.dbgLine line] else out
      match parsePbdkf2Hash line with
      | .indexOutOfRange => { out := out1, term := .panicked, scanned := scanned + 1 }
      | .error e => scanLoop kdf debug input rest (out1 ++ [.errorParsing e]) (scanned + 1)
      | .ok hashType keyLength iters salt derivedKey =>
        let out2 :=
          if debug then
            out1 ++ [.dbgComponents hashType keyLength iters salt derivedKey,
              .dbgUsing hashType keyLength iters]
          else out1
        let dk := (kdf input salt iters keyLength).getD []
        let out3 := if debug then out2 ++ [.dbgDerived dk] else out2
        if derivedKey = dk then
          { out := out3 ++ [.tokenMatches], term := .returned, scanned := scanned + 1 }
        else scanLoop kdf debug input rest out3 (scanned + 1)

/-- The function `main` of `cmd/cmptoken/main.go`.  `tokensFile` is `none`
when `os.Open` fails and otherwise holds the lines the scanner delivers for
the token file: `bufioScanLines` of its content, `scannerDelivers` of its
lines. -/
def cmptokenMain (kdf : KeyFn) (debug : Bool) (tokensFile : Option (List Str))
    (stdin : List Bytes) : CmpRun :=
  match tokensFile with
  | none => { out := [.errorOpening], term := .exited 1, scanned := 0 }
  | some lines =>
    let input := (readPassword stdin).1
    let out := [CmpOut.promptPassphrase, CmpOut.newline]
    let out := if debug then out ++ [.dbgEntered input] else out
    scanLoop kdf debug input lines out 0

/-! ## `cmd/mktoken`: the generation workflow -/

/-- The struct `Defaults` of `cmd/mktoken/main.go`. -/
structure Defaults where
  saltSize : Int
  iters : Int
  keyLength : Int
  hashType : Str
  cipherLength : Int
  tokenFile : Str
  deriving DecidableEq, Repr

/-- The method `setDefaults`. -/
def Defaults.setDefaults (d : Defaults) : Defaults :=
  let d1 := if d.cipherLength = 0 then { d with cipherLength := 512 } else d
  let d2 := if d1.hashType = [] then { d1 with hashType := "HMACSHA3".toList } else d1
  let d3 := if d2.iters = 0 then { d2 with iters := 100000 } else d2
  let d4 := if d3.keyLength = 0 then { d3 with keyLength := 64 } else d3
  if d4.saltSize = 4 then { d4 with saltSize := 16 } else d4

/-- The package-level flag variables of `cmd/mktoken/main.go` as `init`
leaves them.  `init` dereferences the pointers of `getopt.IntLong` before
`getopt.Parse` runs in `main`, so the options `-c`, `-s`, `-i` and `-k` never
change them: in every run they hold their initial values, `defaultFlags`. -/
structure Flags where
  cipherLength : Int
  saltSize : Int
  hashingIters : Int
  keyLength : Int
  hashType : Str
  deriving DecidableEq, Repr

/-- The initial values of the flag variables. -/
def defaultFlags : Flags :=
  { cipherLength := 512, saltSize := 16, hashingIters := 100000, keyLength := 64,
    hashType := "HMACSHA3".toList }

/-- What the generators print, one constructor per print statement. -/
inductive MkOut
  | debugMode (debug : Bool)
  | dbgConfig (d : Defaults)
  | promptEnter
  | promptReenter
  | newline
  | doNotMatch
  | matchUpdating
  | dbgPassphrase (input : Bytes)
  | tooMany
  | dbgSalt (salt : Bytes)
  | fatalKey
  | dbgDerived (dk : Bytes)
  | dbgHashed (hashedToken : Str)
  | written (tokenFile : Str)
  | youCanNow
  deriving DecidableEq, Repr

/-- The variables of the confirmation loop, the remaining terminal input, the
number of `ReadPassword` calls made and the output so far. -/
structure LoopState where
  iters : Int
  input : Bytes
  input2 : Bytes
  stdin : List Bytes
  reads : Nat
  out : List MkOut
  deriving DecidableEq, Repr

/-- How the confirmation loop is left: by `break` or a false condition
(`proceeds`), by `os.Exit`, or the bound on the iterations of the model was too
small. -/
inductive LoopOutcome (State : Type)
  | proceeds (s : State)
  | exits (code : Nat) (s : State)
  | outOfFuel
  deriving DecidableEq, Repr

/-- The loop `for iters < 4` of `main` in `cmd/mktoken/main.go`. -/
def confirmLoop (debug : Bool) : Nat → LoopState → LoopOutcome LoopState
  | 0, s => if s.iters < 4 then .outOfFuel else .proceeds s
  | fuel + 1, s =>
    if s.iters < 4 then
      let r1 := readPassword s.stdin
      let r2 := readPassword r1.2
      let s1 : LoopState :=
        { iters := s.iters + 1, input := r1.1, input2 := r2.1, stdin := r2.2,
          reads := s.reads + 2,
          out := s.out ++ [.promptEnter, .promptReenter, .newline] }
      if s1.iters ≠ 4 then
        if s1.input ≠ s1.input2 then
          confirmLoop debug fuel { s1 with out := s1.out ++ [.doNotMatch] }
        else
          .proceeds { s1 with out := s1.out ++ [.matchUpdating]
                                ++ (if debug then [.dbgPassphrase s1.input] else []) }
      else .exits 1 { s1 with out := s1.out ++ [.tooMany] }
    else .proceeds s

/-- Result of a run of a generator: output, termination, number of
`ReadPassword` calls, whether the token file was opened, and its content
after the run. -/
structure MkRun where
  out : List MkOut
  term : Termination
  reads : Nat
  opened : Bool
  file : Str
  deriving DecidableEq, Repr

/-- The `fmt.Sprintf` call of `main` in `cmd/mktoken/main.go`, with the format
`{X-PBDKF2}%s+%d:%d:%x:%x` followed by a line feed. -/
def fmtToken (hashType : Str) (cipherLength iters : Int) (salt dk : Bytes) : Str :=
  tag ++ hashType ++ ['+'] ++ fmtInt cipherLength ++ [':'] ++ fmtInt iters ++ [':']
    ++ fmtHex salt ++ [':'] ++ fmtHex dk ++ ['\n']

/-- The function `main` of `cmd/mktoken/main.go`.  `flags` are the
package-level variables, `tokenFile` the path, `openFails` tells whether
`os.OpenFile` fails, `file` is the content of the token file before the run
(empty when absent) and `randRead` the bytes `rand.Read` delivers.  A write
to the opened file succeeds.  The result is `none` only if the iteration bound
of the model of the loop were too small. -/
def mktokenMain (kdf : KeyFn) (randRead : Nat → Bytes) (flags : Flags) (debug : Bool)
    (tokenFile : Str) (openFails : Bool) (file : Str) (stdin : List Bytes) : Option MkRun :=
  let d0 : Defaults :=
    { saltSize := 0, iters := 0, keyLength := 0, hashType := [], cipherLength := 0,
      tokenFile := tokenFile }
  let d1 := d0.setDefaults
  let d : Defaults :=
    { d1 with cipherLength := flags.cipherLength, saltSize := flags.saltSize,
              iters := flags.hashingIters, keyLength := flags.keyLength,
              hashType := flags.hashType }
  let out0 := [MkOut.debugMode debug] ++ (if debug then [.dbgConfig d] else [])
  match confirmLoop debug 3
      { iters := 1, input := [], input2 := [], stdin := stdin, reads := 0, out := out0 } with
  | .outOfFuel => none
  | .exits code s =>
    some { out := s.out, term := .exited code, reads := s.reads, opened := false, file := file }
  | .proceeds s =>
    if openFails then
      some { out := s.out, term := .panicked, reads := s.reads, opened := false, file := file }
    else
      let salt := randRead d.saltSize.toNat
      let out1 := s.out ++ (if debug then [.dbgSalt salt] else [])
      match kdf s.input salt d.iters d.keyLength with
      | none =>
        some { out := out1 ++ [.fatalKey], term := .exited 1, reads := s.reads, opened := true,
               file := file }
      | some dk =>
        let out2 := out1 ++ (if debug then [.dbgDerived dk] else [])
        let hashedToken := fmtToken d.hashType d.cipherLength d.iters salt dk
        let out3 := out2 ++ (if debug then [.dbgHashed hashedToken] else [])
        some { out := out3 ++ [.written d.tokenFile, .youCanNow], term := .returned,
               reads := s.reads, opened := true, file := file ++ hashedToken }

/-! ## `src/main.go`: the earlier generator -/

/-- The function `pbkdf2.Key` of `golang.org/x/crypto/pbkdf2` instantiated
with `sha3.New512`: password, salt, iteration count, key length. -/
abbrev KeyFnX := Bytes → Bytes → Int → Int → Bytes

/-- The variables of the confirmation loop of `src/main.go`. -/
structure LegacyLoopState where
  lcontrol : Int
  pPhrase : Bytes
  stdin : List Bytes
  reads : Nat
  out : List MkOut
  deriving DecidableEq, Repr

/-- The loop `for lcontrol < 4` of `main` in `src/main.go`. -/
def legacyConfirmLoop : Nat → LegacyLoopState → LoopOutcome LegacyLoopState
  | 0, s => if s.lcontrol < 4 then .outOfFuel else .proceeds s
  | fuel + 1, s =>
    if s.lcontrol < 4 then
      let r1 := readPassword s.stdin
      let r2 := readPassword r1.2
      let input := r1.1
      let input2 := r2.1
      let s1 : LegacyLoopState :=
        { s with lcontrol := s.lcontrol + 1, stdin := r2.2, reads := s.reads + 2,
                 out := s.out ++ [.promptEnter, .promptReenter, .newline] }
      if s1.lcontrol ≠ 4 then
        if input ≠ input2 then
          legacyConfirmLoop fuel { s1 with pPhrase := [], out := s1.out ++ [.doNotMatch] }
        else
          .proceeds { s1 with pPhrase := input, out := s1.out ++ [.matchUpdating] }
      else .exits 1 { s1 with out := s1.out ++ [.tooMany] }
    else .proceeds s

/-- The function `main` of `src/main.go` (after the option handling).  The
field `saltSize` of its `Defaults` is set to 4 and not read again: the salt is
requested with the literal `getSalt(4)`.  A write to the opened file
succeeds. -/
def legacyMain (kdf : KeyFnX) (randRead : Nat → Bytes) (openFails : Bool) (file : Str)
    (stdin : List Bytes) : Option MkRun :=
  let iters : Int := 10000
  let keyLength : Int := 20
  let hashType : Str := "HMACSHA3".toList
  let cypherLength : Int := 512
  match legacyConfirmLoop 3
      { lcontrol := 1, pPhrase := [], stdin := stdin, reads := 0, out := [] } with
  | .outOfFuel => none
  | .exits code s =>
    some { out := s.out, term := .exited code, reads := s.reads, opened := false, file := file }
  | .proceeds s =>
    if openFails then
      some { out := s.out, term := .panicked, reads := s.reads, opened := false, file := file }
    else
      let salt := randRead 4
      if hashType = "HMACSHA3".toList ∧ cypherLength = 512 then
        let dk := kdf s.pPhrase salt iters keyLength
        let encodedDk := b64Encode dk
        let encodedSalt := b64Encode salt
        let encodedIters := b64Encode (strBytes (fmtBinary iters))
        let line :=
          tag ++ "HMACSHA3+".toList ++ fmtInt cypherLength ++ [':'] ++ encodedIters ++ [':']
            ++ encodedSalt ++ [':'] ++ encodedDk ++ ['\n']
        some { out := s.out, term := .returned, reads := s.reads, opened := true,
               file := file ++ line }
      else
        some { out := s.out, term := .returned, reads := s.reads, opened := true, file := file }

/-! ## Vocabulary of the properties -/

/-- The lines the scan loop skips: empty lines and comments. -/
def IsSkipped (line : Str) : Prop := line = [] ∨ line.head? = some '#'

instance (line : Str) : Decidable (IsSkipped line) := by
  unfold IsSkipped; infer_instance

/-- No decodable record of the store, a line that is neither empty nor a
comment and that the decoder accepts, has the key derived from the passphrase
with the salt, the iteration count and the key length of that record. -/
def NoRecordMatches (kdf : KeyFn) (input : Bytes) (lines : List Str) : Prop :=
  ∀ line ∈ lines, ¬ IsSkipped line → ∀ hashType keyLength iters salt derivedKey,
    parsePbdkf2Hash line = .ok hashType keyLength iters salt derivedKey →
      derivedKey ≠ (kdf input salt iters keyLength).getD []

/-- Some record of the store that reaches the decoder has the key derived
from the passphrase with the parameters of that record. -/
def SomeRecordMatches (kdf : KeyFn) (input : Bytes) (lines : List Str) : Prop :=
  ∃ line ∈ lines, ¬ IsSkipped line ∧ ∃ hashType keyLength iters salt derivedKey,
    parsePbdkf2Hash line = .ok hashType keyLength iters salt derivedKey ∧
      derivedKey = (kdf input salt iters keyLength).getD []

/-- No line that reaches the decoder makes it fail with an index out of
range. -/
def NoFaultyLine (lines : List Str) : Prop :=
  ∀ line ∈ lines, ¬ IsSkipped line → parsePbdkf2Hash line ≠ .indexOutOfRange

/-- A non-empty string of decimal digits. -/
def IsDigits (ds : Str) : Prop := ds ≠ [] ∧ ∀ c ∈ ds, 48 ≤ c.toNat ∧ c.toNat ≤ 57

/-- The natural number a string of decimal digits denotes. -/
def digitsValue (ds : Str) : Nat := ds.foldl (fun a c => a * 10 + (c.toNat - 48)) 0

/-- The text `s` is a decimal numeral of the integer `n`: decimal digits with
an optional sign in front. -/
def DenotesInt (s : Str) (n : Int) : Prop :=
  (IsDigits s ∧ n = digitsValue s) ∨
  (∃ ds, s = '+' :: ds ∧ IsDigits ds ∧ n = digitsValue ds) ∨
  (∃ ds, s = '-' :: ds ∧ IsDigits ds ∧ n = -(digitsValue ds : Int))

/-- The integer is in the range of a 64-bit `int`. -/
def InIntRange (n : Int) : Prop := -(2 : Int) ^ 63 ≤ n ∧ n < (2 : Int) ^ 63

/-! ## Lemmas on the library functions -/

theorem stringsSplit_ne_nil (sep : Char) (s : Str) : stringsSplit sep s ≠ [] := by
  induction s with
  | nil => simp [stringsSplit]
  | cons c cs ih =>
    unfold stringsSplit
    split
    · simp
    · split <;> simp

theorem stringsSplit_of_not_mem {sep : Char} {s : Str} (h : sep ∉ s) :
    stringsSplit sep s = [s] := by
  induction s with
  | nil => rfl
  | cons c cs ih =>
    have hc : c ≠ sep := fun e => h (by simp [e])
    have hcs : sep ∉ cs := fun e => h (by simp [e])
    simp [stringsSplit, hc, ih hcs]

theorem stringsSplit_append {sep : Char} {a : Str} (b : Str) (h : sep ∉ a) :
    stringsSplit sep (a ++ sep :: b) = a :: stringsSplit sep b := by
  induction a with
  | nil => simp [stringsSplit]
  | cons c cs ih =>
    have hc : c ≠ sep := fun e => h (by simp [e])
    have hcs : sep ∉ cs := fun e => h (by simp [e])
    simp [stringsSplit, hc, ih hcs]

theorem replaceGo_skip (old : Str) (k : Nat) (s : Str) :
    stringsReplaceAllEmptyGo old k s = stringsReplaceAllEmptyGo old 0 (s.drop k) := by
  induction k generalizing s with
  | zero => simp
  | succ k ih =>
    cases s with
    | nil => simp [stringsReplaceAllEmptyGo]
    | cons c cs => simp [stringsReplaceAllEmptyGo, ih]

theorem replaceAll_tag_append (s : Str) :
    stringsReplaceAllEmpty (tag ++ s) tag = stringsReplaceAllEmpty s tag := by
  simp [stringsReplaceAllEmpty, tag, stringsReplaceAllEmptyGo, List.isPrefixOf, replaceGo_skip]

theorem replaceAll_of_no_occurrence {old : Str} :
    ∀ s : Str, (∀ u v : Str, s ≠ u ++ old ++ v) → stringsReplaceAllEmpty s old = s := by
  intro s
  induction s with
  | nil => intro _; rfl
  | cons c cs ih =>
    intro h
    have hpre : old.isPrefixOf (c :: cs) = false := by
      cases hp : old.isPrefixOf (c :: cs) with
      | false => rfl
      | true =>
        obtain ⟨t, ht⟩ := List.isPrefixOf_iff_prefix.mp hp
        exact absurd (by simpa using ht.symm) (h [] t)
    have hcs : ∀ u v : Str, cs ≠ u ++ old ++ v := by
      intro u v e
      exact h (c :: u) v (by simp [e])
    have := ih hcs
    simp only [stringsReplaceAllEmpty] at this ⊢
    simp [stringsReplaceAllEmptyGo, hpre, this]

/-! ### Decimal numerals -/

theorem digitVal_ofNat {k : Nat} (hk : k < 10) : digitVal (Char.ofNat (48 + k)) = some k := by
  interval_cases k <;> rfl

theorem digitVal_ne_of_not_digit {c : Char} (h : ¬ (48 ≤ c.toNat ∧ c.toNat ≤ 57)) :
    digitVal c = none := by
  simp [digitVal, h]

theorem parseDigits_append (xs ys : Str) (a : Nat) :
    parseDigits (xs ++ ys) a = (parseDigits xs a).bind (parseDigits ys) := by
  induction xs generalizing a with
  | nil => simp [parseDigits]
  | cons c cs ih =>
    simp only [List.cons_append, parseDigits]
    cases digitVal c with
    | none => simp
    | some d => simp [ih]

theorem natDigitsGo_acc (base fuel n : Nat) (acc : Str) :
    natDigitsGo base fuel n acc = natDigitsGo base fuel n [] ++ acc := by
  induction fuel generalizing n acc with
  | zero => simp [natDigitsGo]
  | succ fuel ih =>
    simp only [natDigitsGo]
    split
    · simp
    · rw [ih, ih (n / base) [_]]; simp

theorem parseDigits_natDigitsGo (fuel n : Nat) (h : n < fuel) :
    parseDigits (natDigitsGo 10 fuel n []) 0 = some n := by
  induction fuel generalizing n with
  | zero => omega
  | succ fuel ih =>
    have hd : digitVal (Char.ofNat (48 + n % 10)) = some (n % 10) :=
      digitVal_ofNat (Nat.mod_lt _ (by decide))
    simp only [natDigitsGo]
    split
    · rename_i h0
      simp only [parseDigits, hd]
      congr 1; omega
    · rename_i h0
      rw [natDigitsGo_acc, parseDigits_append, ih (n / 10) (by omega)]
      simp only [Option.some_bind, parseDigits, hd]
      congr 1; omega

/-- Every character of a decimal numeral is a digit. -/
theorem natDigitsGo_digits (fuel n : Nat) :
    ∀ c ∈ natDigitsGo 10 fuel n [], 48 ≤ c.toNat ∧ c.toNat ≤ 57 := by
  induction fuel generalizing n with
  | zero => simp [natDigitsGo]
  | succ fuel ih =>
    have hd : ∀ k, k < 10 → 48 ≤ (Char.ofNat (48 + k)).toNat ∧ (Char.ofNat (48 + k)).toNat ≤ 57 := by
      intro k hk; interval_cases k <;> decide
    have hn := hd (n % 10) (Nat.mod_lt _ (by decide))
    simp only [natDigitsGo]
    split
    · intro c hc
      simp only [List.mem_singleton] at hc
      subst hc; exact hn
    · rw [natDigitsGo_acc]
      intro c hc
      simp only [List.mem_append, List.mem_singleton] at hc
      rcases hc with hc | hc
      · exact ih _ c hc
      · subst hc; exact hn

theorem natDec_digits (n : Nat) : ∀ c ∈ natDec n, 48 ≤ c.toNat ∧ c.toNat ≤ 57 :=
  natDigitsGo_digits _ _

theorem natDec_ne_nil (n : Nat) : natDec n ≠ [] := by
  simp only [natDec, natDigitsGo]
  split
  · simp
  · rw [natDigitsGo_acc]; simp

theorem parseDigits_natDec (n : Nat) : parseDigits (natDec n) 0 = some n :=
  parseDigits_natDigitsGo _ _ (by omega)

theorem digitVal_eq_some {c : Char} {d : Nat} :
    digitVal c = some d ↔ (48 ≤ c.toNat ∧ c.toNat ≤ 57) ∧ d = c.toNat - 48 := by
  unfold digitVal
  split
  · rename_i h; simp [h, eq_comm]
  · rename_i h; simp [h]

theorem parseDigits_eq_some {ds : Str} {acc v : Nat} :
    parseDigits ds acc = some v ↔
      (∀ c ∈ ds, 48 ≤ c.toNat ∧ c.toNat ≤ 57) ∧
        v = ds.foldl (fun a c => a * 10 + (c.toNat - 48)) acc := by
  induction ds generalizing acc with
  | nil => simp [parseDigits, eq_comm]
  | cons c cs ih =>
    simp only [parseDigits]
    cases hd : digitVal c with
    | none =>
      have : ¬ (48 ≤ c.toNat ∧ c.toNat ≤ 57) := by
        intro hc
        have := (digitVal_eq_some (c := c) (d := c.toNat - 48)).mpr ⟨hc, rfl⟩
        rw [hd] at this; cases this
      simp [this]
    | some d =>
      obtain ⟨hc, rfl⟩ := digitVal_eq_some.mp hd
      simp only [ih, List.mem_cons, forall_eq_or_imp, List.foldl_cons, hc, true_and]

theorem foldl_digits_ge (ds : Str) (n : Nat) :
    n ≤ ds.foldl (fun a c => a * 10 + (c.toNat - 48)) n := by
  induction ds generalizing n with
  | nil => simp
  | cons c cs ih =>
    simp only [List.foldl_cons]
    have := ih (n * 10 + (c.toNat - 48))
    omega

/-- The bounded parser agrees with the value of the digits as long as that
value is in the range of `uint64`, and reports a range error beyond it. -/
theorem parseUint_of_digits {ds : Str} {n v : Nat} (hn : n < 2 ^ 64)
    (h : parseDigits ds n = some v) :
    parseUint ds n = if v < 2 ^ 64 then .ok v else .error .outOfRange := by
  induction ds generalizing n with
  | nil =>
    simp only [parseDigits, Option.some.injEq] at h
    subst h
    simp only [parseUint]
    rw [if_pos hn]
  | cons c cs ih =>
    simp only [parseDigits] at h
    cases hd : digitVal c with
    | none => simp [hd] at h
    | some d =>
      simp only [hd] at h
      have hge : n * 10 + d ≤ v := by
        obtain ⟨_, hv⟩ := parseDigits_eq_some.mp h
        rw [hv]; exact foldl_digits_ge cs _
      simp only [parseUint, hd]
      split
      · rename_i hcut
        have : ¬ v < 2 ^ 64 := by omega
        rw [if_neg this]
      · split
        · rename_i hcut hov
          have : ¬ v < 2 ^ 64 := by omega
          rw [if_neg this]
        · rename_i hcut hov
          exact ih (by omega) h

theorem parseUint_of_none {ds : Str} {n : Nat} (h : parseDigits ds n = none) :
    ∃ e, parseUint ds n = .error e := by
  induction ds generalizing n with
  | nil => simp [parseDigits] at h
  | cons c cs ih =>
    simp only [parseDigits] at h
    cases hd : digitVal c with
    | none => exact ⟨.badNumeral, by simp [parseUint, hd]⟩
    | some d =>
      simp only [hd] at h
      simp only [parseUint, hd]
      split
      · exact ⟨_, rfl⟩
      · split
        · exact ⟨_, rfl⟩
        · exact ih h

theorem parseUint_ok {ds : Str} {u : Nat} (h : parseUint ds 0 = .ok u) :
    parseDigits ds 0 = some u ∧ u < 2 ^ 64 := by
  cases hp : parseDigits ds 0 with
  | none =>
    obtain ⟨e, he⟩ := parseUint_of_none hp
    rw [he] at h; cases h
  | some v =>
    have := parseUint_of_digits (by decide) hp
    rw [this] at h
    split at h
    · rename_i hlt
      simp only [Except.ok.injEq] at h
      subst h
      exact ⟨rfl, hlt⟩
    · cases h

theorem parseUint_of_digits_lt {ds : Str} {v : Nat} (h : parseDigits ds 0 = some v)
    (hv : v < 2 ^ 64) : parseUint ds 0 = .ok v := by
  rw [parseUint_of_digits (by decide) h, if_pos hv]

theorem atoiSplitSign_natDec (n : Nat) : atoiSplitSign (natDec n) = (false, natDec n) := by
  have hne := natDec_ne_nil n
  have hd := natDec_digits n
  cases hs : natDec n with
  | nil => exact absurd hs hne
  | cons c cs =>
    have hc := hd c (by simp [hs])
    have h1 : c ≠ '-' := by rintro rfl; revert hc; decide
    have h2 : c ≠ '+' := by rintro rfl; revert hc; decide
    simp [atoiSplitSign, h1, h2]

theorem strconvAtoi_natDec (n : Nat) :
    strconvAtoi (natDec n) = if n < 2 ^ 63 then .ok (n : Int) else .error .outOfRange := by
  have hne := natDec_ne_nil n
  have hp := parseDigits_natDec n
  simp only [strconvAtoi, atoiSplitSign_natDec]
  cases hs : natDec n with
  | nil => exact absurd hs hne
  | cons c cs =>
    rw [hs] at hp
    have hu := parseUint_of_digits (by decide) hp
    simp only [hu]
    by_cases h64 : n < 2 ^ 64
    · rw [if_pos h64]
      simp
    · have h63 : ¬ n < 2 ^ 63 := by omega
      rw [if_neg h64, if_neg h63]

theorem strconvAtoi_neg_natDec (n : Nat) :
    strconvAtoi ('-' :: natDec n)
      = if n ≤ 2 ^ 63 then .ok (-(n : Int)) else .error .outOfRange := by
  have hne := natDec_ne_nil n
  have hp := parseDigits_natDec n
  simp only [strconvAtoi, atoiSplitSign]
  cases hs : natDec n with
  | nil => exact absurd hs hne
  | cons c cs =>
    rw [hs] at hp
    have hu := parseUint_of_digits (by decide) hp
    simp only [if_true, hu]
    by_cases h64 : n < 2 ^ 64
    · rw [if_pos h64]
    · have h63 : ¬ n ≤ 2 ^ 63 := by omega
      rw [if_neg h64, if_neg h63]

/-- The decoder of integers inverts `%d` on the range of a 64-bit `int`. -/
theorem strconvAtoi_fmtInt (n : Int) (hlo : -(2 : Int) ^ 63 ≤ n) (hhi : n < (2 : Int) ^ 63) :
    strconvAtoi (fmtInt n) = .ok n := by
  unfold fmtInt
  split
  · rename_i hneg
    rw [strconvAtoi_neg_natDec]
    have h1 : n.natAbs ≤ 2 ^ 63 := by omega
    simp only [h1, if_true]
    congr 1; omega
  · rename_i hpos
    rw [strconvAtoi_natDec]
    have h1 : n.natAbs < 2 ^ 63 := by omega
    simp only [h1, if_true]
    congr 1; omega

theorem fmtInt_no_colon (n : Int) : ':' ∉ fmtInt n := by
  have hd := natDec_digits n.natAbs
  unfold fmtInt
  split
  · intro hm
    simp only [List.mem_cons] at hm
    rcases hm with hm | hm
    · exact absurd hm (by decide)
    · exact absurd (hd _ hm) (by decide)
  · intro hm
    exact absurd (hd _ hm) (by decide)

/-! ### Base64 and hexadecimal text -/

theorem b64Val_b64Char {i : Nat} (h : i < 64) : b64Val (b64Char i) = some i := by
  interval_cases i <;> rfl

theorem b64Char_mem (i : Nat) : b64Char i ∈ b64Alphabet := by
  by_cases h : i < 64
  · interval_cases i <;> decide
  · have hlen : b64Alphabet.length ≤ i := by
      have : b64Alphabet.length = 64 := by decide
      omega
    simp only [b64Char, List.getD_eq_getElem?_getD, List.getElem?_eq_none hlen]
    decide

theorem b64Alphabet_plain : ∀ c ∈ b64Alphabet, c ≠ ':' ∧ c ≠ '\r' ∧ c ≠ '\n' ∧ c ≠ '=' := by
  decide

theorem b64Val_pad : b64Val '=' = none := by decide

theorem b64Encode_chars (bs : Bytes) : ∀ c ∈ b64Encode bs, c ∈ b64Alphabet ∨ c = '=' := by
  induction bs using b64Encode.induct with
  | case1 => simp [b64Encode]
  | case2 a =>
    intro c hc
    simp only [b64Encode, List.mem_cons, List.mem_singleton, List.not_mem_nil, or_false] at hc
    rcases hc with rfl | rfl | rfl | rfl
    · exact Or.inl (b64Char_mem _)
    · exact Or.inl (b64Char_mem _)
    · exact Or.inr rfl
    · exact Or.inr rfl
  | case3 a b =>
    intro c hc
    simp only [b64Encode, List.mem_cons, List.mem_singleton, List.not_mem_nil, or_false] at hc
    rcases hc with rfl | rfl | rfl | rfl
    · exact Or.inl (b64Char_mem _)
    · exact Or.inl (b64Char_mem _)
    · exact Or.inl (b64Char_mem _)
    · exact Or.inr rfl
  | case4 a b c rest ih =>
    intro x hx
    simp only [b64Encode, List.mem_cons] at hx
    rcases hx with rfl | rfl | rfl | rfl | hx
    · exact Or.inl (b64Char_mem _)
    · exact Or.inl (b64Char_mem _)
    · exact Or.inl (b64Char_mem _)
    · exact Or.inl (b64Char_mem _)
    · exact ih x hx

theorem b64Encode_no_colon (bs : Bytes) : ':' ∉ b64Encode bs := by
  intro h
  rcases b64Encode_chars bs _ h with h | h
  · exact (b64Alphabet_plain _ h).1 rfl
  · exact absurd h (by decide)

theorem b64Encode_filter (bs : Bytes) :
    (b64Encode bs).filter (fun c => !(c = '\r' || c = '\n')) = b64Encode bs := by
  apply List.filter_eq_self.mpr
  intro c hc
  rcases b64Encode_chars bs _ hc with h | h
  · have := b64Alphabet_plain _ h
    simp [this.2.1, this.2.2.1]
  · subst h; decide

theorem b64DecodeQuanta_encode (bs : Bytes) (hb : IsBytes bs) :
    b64DecodeQuanta (b64Encode bs) = some bs := by
  induction bs using b64Encode.induct with
  | case1 => simp [b64Encode, b64DecodeQuanta]
  | case2 a =>
    have ha : a < 256 := hb a (by simp)
    have h0 : a / 4 < 64 := by omega
    have h1 : a % 4 * 16 < 64 := by omega
    simp only [b64Encode, b64DecodeQuanta, b64Val_b64Char h0, b64Val_b64Char h1, b64Val_pad]
    simp
    omega
  | case3 a b =>
    have ha : a < 256 := hb a (by simp)
    have hb' : b < 256 := hb b (by simp)
    have h0 : a / 4 < 64 := by omega
    have h1 : a % 4 * 16 + b / 16 < 64 := by omega
    have h2 : b % 16 * 4 < 64 := by omega
    simp only [b64Encode, b64DecodeQuanta, b64Val_b64Char h0, b64Val_b64Char h1,
      b64Val_b64Char h2, b64Val_pad]
    simp
    omega
  | case4 a b c rest ih =>
    have ha : a < 256 := hb a (by simp)
    have hb' : b < 256 := hb b (by simp)
    have hc : c < 256 := hb c (by simp)
    have hrest : IsBytes rest := fun x hx => hb x (by simp [hx])
    have h0 : a / 4 < 64 := by omega
    have h1 : a % 4 * 16 + b / 16 < 64 := by omega
    have h2 : b % 16 * 4 + c / 64 < 64 := by omega
    have h3 : c % 64 < 64 := by omega
    simp only [b64Encode, b64DecodeQuanta, b64Val_b64Char h0, b64Val_b64Char h1,
      b64Val_b64Char h2, b64Val_b64Char h3, ih hrest]
    simp
    omega

/-- The base64 decoder inverts the base64 encoder on byte slices. -/
theorem b64Decode_encode (bs : Bytes) (hb : IsBytes bs) : b64Decode (b64Encode bs) = some bs := by
  rw [b64Decode, b64Encode_filter, b64DecodeQuanta_encode bs hb]

/-! ### The decoder on the documented textual form -/

theorem no_occurrence_append {old h b : Str} (c : Char) (hc : c ∉ old)
    (hh : ∀ u v : Str, h ≠ u ++ old ++ v) (hb : b.length + 1 < old.length) :
    ∀ u v : Str, h ++ c :: b ≠ u ++ old ++ v := by
  intro u v e
  rw [List.append_assoc] at e
  rcases List.append_eq_append_iff.mp e with ⟨a1, _, h2⟩ | ⟨c1, h1, h2⟩
  · have := congrArg List.length h2
    simp at this
    omega
  · rcases List.append_eq_append_iff.mp h2 with ⟨a2, h3, _⟩ | ⟨c2, h3, h4⟩
    · exact hh u a2 (by rw [h1, h3, List.append_assoc])
    · cases c2 with
      | nil =>
        simp only [List.append_nil] at h3
        exact hh u [] (by rw [h1, h3, List.append_nil])
      | cons x xs =>
        simp only [List.cons_append, List.cons.injEq] at h4
        exact hc (by rw [h3, h4.1]; simp)

theorem parsePbdkf2Hash_fields (f0 f1 f2 f3 : Str) (h0 : ':' ∉ f0) (h1 : ':' ∉ f1)
    (h2 : ':' ∉ f2) (h3 : ':' ∉ f3) :
    stringsSplit ':' (f0 ++ [':'] ++ f1 ++ [':'] ++ f2 ++ [':'] ++ f3) = [f0, f1, f2, f3] := by
  have e : f0 ++ [':'] ++ f1 ++ [':'] ++ f2 ++ [':'] ++ f3
      = f0 ++ ':' :: (f1 ++ ':' :: (f2 ++ ':' :: f3)) := by simp
  rw [e, stringsSplit_append _ h0, stringsSplit_append _ h1, stringsSplit_append _ h2,
    stringsSplit_of_not_mem h3]

/-- The decoder on a line of four colon-free fields whose first field is the
tag, a hash type without `+` and without the tag, `+`, and a supported key
length. -/
theorem parsePbdkf2Hash_of_fields (h f1 f2 f3 : Str) (bits : Int)
    (hcolon : ':' ∉ h) (hplus : '+' ∉ h) (htag : ∀ u v : Str, h ≠ u ++ tag ++ v)
    (hbits : bits = 128 ∨ bits = 256 ∨ bits = 512)
    (h1 : ':' ∉ f1) (h2 : ':' ∉ f2) (h3 : ':' ∉ f3) :
    parsePbdkf2Hash (tag ++ h ++ ['+'] ++ fmtInt bits ++ [':'] ++ f1 ++ [':'] ++ f2 ++ [':'] ++ f3)
      = match strconvAtoi f1 with
        | .error e => .error (.invalidIterationCount e)
        | .ok iters =>
          match b64Decode f2 with
          | none => .error .cannotDecodeSalt
          | some salt =>
            match b64Decode f3 with
            | none => .error .cannotDecodeDerivedKey
            | some derivedKey => .ok h (bits / 8) iters salt derivedKey := by
  have hb1 : '+' ∉ fmtInt bits := by rcases hbits with rfl | rfl | rfl <;> decide
  have hb2 : (fmtInt bits).length + 1 < tag.length := by
    rcases hbits with rfl | rfl | rfl <;> decide
  have hb3 : strconvAtoi (fmtInt bits) = .ok bits :=
    strconvAtoi_fmtInt bits (by rcases hbits with rfl | rfl | rfl <;> decide)
      (by rcases hbits with rfl | rfl | rfl <;> decide)
  have hf0 : ':' ∉ tag ++ (h ++ '+' :: fmtInt bits) := by
    have := fmtInt_no_colon bits
    have ht : ':' ∉ tag := by decide
    simp [ht, hcolon, this]
  have hrep : stringsReplaceAllEmpty (tag ++ (h ++ '+' :: fmtInt bits)) tag
      = h ++ '+' :: fmtInt bits := by
    rw [replaceAll_tag_append]
    exact replaceAll_of_no_occurrence _ (no_occurrence_append '+' (by decide) htag hb2)
  have hsplit : stringsSplit '+' (h ++ '+' :: fmtInt bits) = [h, fmtInt bits] := by
    rw [stringsSplit_append _ hplus, stringsSplit_of_not_mem hb1]
  have e : tag ++ h ++ ['+'] ++ fmtInt bits ++ [':'] ++ f1 ++ [':'] ++ f2 ++ [':'] ++ f3
      = tag ++ (h ++ '+' :: fmtInt bits) ++ [':'] ++ f1 ++ [':'] ++ f2 ++ [':'] ++ f3 := by
    simp
  rw [e]
  simp only [parsePbdkf2Hash]
  rw [parsePbdkf2Hash_fields _ _ _ _ hf0 h1 h2 h3]
  simp only [List.getElem?_cons_zero, List.getElem?_cons_succ, hrep, hsplit, hb3]
  rcases hbits with rfl | rfl | rfl <;> simp

/-- Without padding, the decoder returns three bytes for every four
characters. -/
theorem b64DecodeQuanta_length (s : Str) (out : Bytes) (hpad : '=' ∉ s)
    (h : b64DecodeQuanta s = some out) : 4 * out.length = 3 * s.length := by
  induction s using b64DecodeQuanta.induct generalizing out with
  | case1 c0 c1 c2 c3 rest v0 v1 h1 h0 v2 h2 v3 h3 ih =>
    simp only [b64DecodeQuanta, h0, h1, h2, h3, Option.map_eq_some'] at h
    obtain ⟨o, ho, rfl⟩ := h
    have := ih o (fun hm => hpad (by simp [hm])) ho
    simp only [List.length_cons]
    omega
  | case2 c0 c1 c2 c3 rest v0 v1 h1 h0 v2 h2 h3 hc =>
    exact absurd (by simp [hc.1]) hpad
  | case3 c0 c1 c2 c3 rest v0 v1 h1 h0 v2 h2 h3 hc =>
    simp [b64DecodeQuanta, h0, h1, h2, h3, hc] at h
  | case4 c0 c1 c2 c3 rest v0 v1 h1 h0 h2 hc =>
    exact absurd (by simp [hc.1]) hpad
  | case5 c0 c1 c2 c3 rest v0 v1 h1 h0 h2 hc =>
    simp [b64DecodeQuanta, h0, h1, h2, hc] at h
  | case6 c0 c1 c2 c3 rest hnone =>
    unfold b64DecodeQuanta at h
    split at h
    · rename_i v0 v1 e0 e1
      exact (hnone v0 v1 e0 e1).elim
    · simp at h
  | case7 =>
    simp only [b64DecodeQuanta, Option.some.injEq] at h
    subst h; rfl
  | case8 t hne hnil =>
    unfold b64DecodeQuanta at h
    split at h
    · rename_i c0 c1 c2 c3 rest
      exact (hne c0 c1 c2 c3 rest rfl).elim
    · exact (hnil rfl).elim
    · simp at h


theorem hexDigit_mem (i : Nat) : hexDigit i ∈ hexAlphabet := by
  by_cases h : i < 16
  · interval_cases i <;> decide
  · have hlen : hexAlphabet.length ≤ i := by
      have : hexAlphabet.length = 16 := by decide
      omega
    simp only [hexDigit, List.getD_eq_getElem?_getD, List.getElem?_eq_none hlen]
    decide

theorem hexAlphabet_plain :
    ∀ c ∈ hexAlphabet, c ≠ ':' ∧ c ≠ '\r' ∧ c ≠ '\n' ∧ c ≠ '=' := by
  decide

theorem fmtHex_chars (bs : Bytes) : ∀ c ∈ fmtHex bs, c ∈ hexAlphabet := by
  induction bs with
  | nil => simp [fmtHex]
  | cons b bs ih =>
    intro c hc
    simp only [fmtHex, List.mem_cons] at hc
    rcases hc with rfl | rfl | hc
    · exact hexDigit_mem _
    · exact hexDigit_mem _
    · exact ih c hc

theorem fmtHex_length (bs : Bytes) : (fmtHex bs).length = 2 * bs.length := by
  induction bs with
  | nil => rfl
  | cons b bs ih => simp only [fmtHex, List.length_cons, ih]; omega

theorem fmtHex_no_colon (bs : Bytes) : ':' ∉ fmtHex bs :=
  fun h => (hexAlphabet_plain _ (fmtHex_chars bs _ h)).1 rfl

/-- What the base64 decoder makes of hexadecimal text: three bytes for every
two bytes that were written. -/
theorem b64Decode_fmtHex_length (bs out : Bytes) (h : b64Decode (fmtHex bs) = some out) :
    2 * out.length = 3 * bs.length := by
  have hfilter : (fmtHex bs).filter (fun c => !(c = '\r' || c = '\n')) = fmtHex bs := by
    apply List.filter_eq_self.mpr
    intro c hc
    have := hexAlphabet_plain _ (fmtHex_chars bs _ hc)
    simp [this.2.1, this.2.2.1]
  rw [b64Decode, hfilter] at h
  have hpad : '=' ∉ fmtHex bs :=
    fun hm => (hexAlphabet_plain _ (fmtHex_chars bs _ hm)).2.2.2 rfl
  have := b64DecodeQuanta_length _ _ hpad h
  rw [fmtHex_length] at this
  omega

/-! ### Characterisation of the integer decoder -/

theorem sign_not_digit {c : Char} (hc : 48 ≤ c.toNat ∧ c.toNat ≤ 57) : c ≠ '-' ∧ c ≠ '+' := by
  constructor <;> (rintro rfl; revert hc; decide)

/-- The model of `strconv.Atoi` accepts exactly the decimal numerals of the
integers of the 64-bit range, and returns the integer denoted. -/
theorem strconvAtoi_ok_iff (s : Str) (n : Int) :
    strconvAtoi s = .ok n ↔ DenotesInt s n ∧ InIntRange n := by
  constructor
  · intro h
    cases s with
    | nil => simp [strconvAtoi, atoiSplitSign] at h
    | cons c cs =>
      by_cases hm : c = '-'
      · subst hm
        cases cs with
        | nil => simp [strconvAtoi, atoiSplitSign] at h
        | cons d ds =>
          have hs : atoiSplitSign ('-' :: d :: ds) = (true, d :: ds) := by simp [atoiSplitSign]
          simp only [strconvAtoi, hs] at h
          cases hu : parseUint (d :: ds) 0 with
          | error e => simp [hu] at h
          | ok u =>
            have hp := (parseUint_ok hu).1
            simp only [hu, if_true] at h
            obtain ⟨hdig, hu⟩ := parseDigits_eq_some.mp hp
            split at h
            · rename_i hle
              simp only [Except.ok.injEq] at h
              refine ⟨Or.inr (Or.inr ⟨d :: ds, rfl, ⟨by simp, hdig⟩, ?_⟩), ?_⟩
              · rw [← h, hu]; rfl
              · unfold InIntRange; omega
            · cases h
      · by_cases hp' : c = '+'
        · subst hp'
          cases cs with
          | nil => simp [strconvAtoi, atoiSplitSign] at h
          | cons d ds =>
            have hs : atoiSplitSign ('+' :: d :: ds) = (false, d :: ds) := by
              simp [atoiSplitSign]
            simp only [strconvAtoi, hs] at h
            cases hu : parseUint (d :: ds) 0 with
            | error e => simp [hu] at h
            | ok u =>
              have hp := (parseUint_ok hu).1
              simp only [hu, Bool.false_eq_true, if_false] at h
              obtain ⟨hdig, hu⟩ := parseDigits_eq_some.mp hp
              split at h
              · rename_i hlt
                simp only [Except.ok.injEq] at h
                refine ⟨Or.inr (Or.inl ⟨d :: ds, rfl, ⟨by simp, hdig⟩, ?_⟩), ?_⟩
                · rw [← h, hu]; rfl
                · unfold InIntRange; omega
              · cases h
        · have hs : atoiSplitSign (c :: cs) = (false, c :: cs) := by
            simp [atoiSplitSign, hm, hp']
          simp only [strconvAtoi, hs] at h
          cases hu : parseUint (c :: cs) 0 with
          | error e => simp [hu] at h
          | ok u =>
            have hp := (parseUint_ok hu).1
            simp only [hu, Bool.false_eq_true, if_false] at h
            obtain ⟨hdig, hu⟩ := parseDigits_eq_some.mp hp
            split at h
            · rename_i hlt
              simp only [Except.ok.injEq] at h
              refine ⟨Or.inl ⟨⟨by simp, hdig⟩, ?_⟩, ?_⟩
              · rw [← h, hu]; rfl
              · unfold InIntRange; omega
            · cases h
  · rintro ⟨hden, hlo, hhi⟩
    rcases hden with ⟨⟨hne, hdig⟩, hv⟩ | ⟨ds, rfl, ⟨hne, hdig⟩, hv⟩ | ⟨ds, rfl, ⟨hne, hdig⟩, hv⟩
    · cases s with
      | nil => exact absurd rfl hne
      | cons c cs =>
        have hc := sign_not_digit (hdig c (by simp))
        have hp : parseDigits (c :: cs) 0 = some (digitsValue (c :: cs)) :=
          parseDigits_eq_some.mpr ⟨hdig, rfl⟩
        have hlt : digitsValue (c :: cs) < 2 ^ 63 := by omega
        have hu := parseUint_of_digits_lt hp (by omega)
        simp [strconvAtoi, atoiSplitSign, hc.1, hc.2, hu, hv]
        omega
    · cases ds with
      | nil => exact absurd rfl hne
      | cons c cs =>
        have hp : parseDigits (c :: cs) 0 = some (digitsValue (c :: cs)) :=
          parseDigits_eq_some.mpr ⟨hdig, rfl⟩
        have hlt : digitsValue (c :: cs) < 2 ^ 63 := by omega
        have hu := parseUint_of_digits_lt hp (by omega)
        simp [strconvAtoi, atoiSplitSign, hu, hv]
        omega
    · cases ds with
      | nil => exact absurd rfl hne
      | cons c cs =>
        have hp : parseDigits (c :: cs) 0 = some (digitsValue (c :: cs)) :=
          parseDigits_eq_some.mpr ⟨hdig, rfl⟩
        have hle : digitsValue (c :: cs) ≤ 2 ^ 63 := by omega
        have hu := parseUint_of_digits_lt hp (by omega)
        simp [strconvAtoi, atoiSplitSign, hu, hv]
        omega

/-! ## The confirmation loop of the generators -/

theorem confirmLoop_two_mismatches (debug : Bool) (out0 : List MkOut)
    (e1 c1 e2 c2 e3 c3 : Bytes) (rest : List Bytes) (h1 : e1 ≠ c1) (h2 : e2 ≠ c2) :
    confirmLoop debug 3
        { iters := 1, input := [], input2 := [],
          stdin := e1 :: c1 :: e2 :: c2 :: e3 :: c3 :: rest, reads := 0, out := out0 }
      = .exits 1
        { iters := 4, input := e3, input2 := c3, stdin := rest, reads := 6,
          out := out0 ++ [.promptEnter, .promptReenter, .newline, .doNotMatch,
            .promptEnter, .promptReenter, .newline, .doNotMatch,
            .promptEnter, .promptReenter, .newline, .tooMany] } := by
  simp [confirmLoop, readPassword, h1, h2]

theorem legacyConfirmLoop_two_mismatches
    (e1 c1 e2 c2 e3 c3 : Bytes) (rest : List Bytes) (h1 : e1 ≠ c1) (h2 : e2 ≠ c2) :
    legacyConfirmLoop 3
        { lcontrol := 1, pPhrase := [],
          stdin := e1 :: c1 :: e2 :: c2 :: e3 :: c3 :: rest, reads := 0, out := [] }
      = .exits 1
        { lcontrol := 4, pPhrase := [], stdin := rest, reads := 6,
          out := [.promptEnter, .promptReenter, .newline, .doNotMatch,
            .promptEnter, .promptReenter, .newline, .doNotMatch,
            .promptEnter, .promptReenter, .newline, .tooMany] } := by
  simp [legacyConfirmLoop, readPassword, h1, h2]

/-- The loop of `cmd/mktoken` never needs more than the three iterations the
model grants it. -/
theorem confirmLoop_total (debug : Bool) (s : LoopState) (h : s.iters = 1) :
    confirmLoop debug 3 s ≠ .outOfFuel := by
  simp only [confirmLoop, h]
  simp only [show ((1 : Int) < 4) = True by decide, if_true]
  split
  · split
    · simp only [show ((1 : Int) + 1 < 4) = True by decide, if_true]
      split
      · split
        · simp
        · simp
      · simp
    · simp
  · simp

/-! ## Claims on the confirmation loop -/

/-- C6 (retry bound).  For every three consecutive pairs of entries
in which the entry and the confirmation differ, both generators (`cmd/mktoken`
and `src/main.go`) end with `os.Exit(1)`, a non-zero exit code, after the third
pair: six passwords have been read and three prompts printed, whatever input
remains, and the token file has not been opened and keeps its content. -/
theorem retry_bound_three_mismatches (kdf : KeyFn) (kdfX : KeyFnX) (randRead : Nat → Bytes)
    (flags : Flags) (debug : Bool) (tokenFile : Str) (openFails : Bool) (file : Str)
    (e1 c1 e2 c2 e3 c3 : Bytes) (rest : List Bytes)
    (h1 : e1 ≠ c1) (h2 : e2 ≠ c2) (h3 : e3 ≠ c3) :
    (∃ r, mktokenMain kdf randRead flags debug tokenFile openFails file
              (e1 :: c1 :: e2 :: c2 :: e3 :: c3 :: rest) = some r ∧
        r.term = .exited 1 ∧ r.term.exitCode ≠ 0 ∧ r.reads = 6 ∧
        r.out.count .promptEnter = 3 ∧ r.opened = false ∧ r.file = file) ∧
    (∃ r, legacyMain kdfX randRead openFails file
              (e1 :: c1 :: e2 :: c2 :: e3 :: c3 :: rest) = some r ∧
        r.term = .exited 1 ∧ r.term.exitCode ≠ 0 ∧ r.reads = 6 ∧
        r.out.count .promptEnter = 3 ∧ r.opened = false ∧ r.file = file) := by
  have _ := h3
  constructor
  · simp only [mktokenMain, confirmLoop_two_mismatches debug _ e1 c1 e2 c2 e3 c3 rest h1 h2]
    refine ⟨_, rfl, ?_⟩
    cases debug <;> simp [Termination.exitCode]
  · simp only [legacyMain, legacyConfirmLoop_two_mismatches e1 c1 e2 c2 e3 c3 rest h1 h2]
    refine ⟨_, rfl, ?_⟩
    simp [Termination.exitCode]

/-- The retry bound of `cmd/mktoken` at the pairs a/b, a/c, a/d. -/
theorem retry_bound_three_mismatches_witness :
    ([97] : Bytes) ≠ [98] ∧
    (∃ r, mktokenMain sampleKdf (fun n => List.replicate n 0) defaultFlags false
              "tokens.lst".toList false [] ([97] :: [98] :: [97] :: [99] :: [97] :: [100] :: [])
            = some r ∧
        r.term = .exited 1 ∧ r.term.exitCode ≠ 0 ∧ r.reads = 6 ∧
        r.out.count .promptEnter = 3 ∧ r.opened = false ∧ r.file = []) :=
  ⟨by decide,
   (retry_bound_three_mismatches sampleKdf (fun _ _ _ _ => []) (fun n => List.replicate n 0)
     defaultFlags false "tokens.lst".toList false [] [97] [98] [97] [99] [97] [100] []
     (by decide) (by decide) (by decide)).1⟩

/-- C5 (acceptance within the attempt limit) fails at the third attempt.  After
two pairs that differ, a third pair whose two entries are equal is read but
never compared: both generators print `Too many invalid passphrase entries!`
and call `os.Exit(1)`; the match is not reported and no record is written. -/
theorem third_attempt_is_never_accepted (kdf : KeyFn) (kdfX : KeyFnX)
    (randRead : Nat → Bytes) (flags : Flags) (debug : Bool) (tokenFile : Str)
    (openFails : Bool) (file : Str) (e1 c1 e2 c2 e3 : Bytes) (rest : List Bytes)
    (h1 : e1 ≠ c1) (h2 : e2 ≠ c2) :
    (∃ r, mktokenMain kdf randRead flags debug tokenFile openFails file
              (e1 :: c1 :: e2 :: c2 :: e3 :: e3 :: rest) = some r ∧
        r.term = .exited 1 ∧ MkOut.matchUpdating ∉ r.out ∧ MkOut.tooMany ∈ r.out ∧
        r.opened = false ∧ r.file = file) ∧
    (∃ r, legacyMain kdfX randRead openFails file
              (e1 :: c1 :: e2 :: c2 :: e3 :: e3 :: rest) = some r ∧
        r.term = .exited 1 ∧ MkOut.matchUpdating ∉ r.out ∧ MkOut.tooMany ∈ r.out ∧
        r.opened = false ∧ r.file = file) := by
  constructor
  · simp only [mktokenMain, confirmLoop_two_mismatches debug _ e1 c1 e2 c2 e3 e3 rest h1 h2]
    refine ⟨_, rfl, ?_⟩
    cases debug <;> simp [Termination.exitCode]
  · simp only [legacyMain, legacyConfirmLoop_two_mismatches e1 c1 e2 c2 e3 e3 rest h1 h2]
    refine ⟨_, rfl, ?_⟩
    simp [Termination.exitCode]

/-- The run of `cmd/mktoken` at the pairs a/b, a/b, a/a: the equal third pair is rejected. -/
theorem third_attempt_is_never_accepted_witness :
    ([97] : Bytes) ≠ [98] ∧
    (∃ r, mktokenMain sampleKdf (fun n => List.replicate n 0) defaultFlags false
              "tokens.lst".toList false [] ([97] :: [98] :: [97] :: [98] :: [97] :: [97] :: [])
            = some r ∧
        r.term = .exited 1 ∧ MkOut.matchUpdating ∉ r.out ∧ MkOut.tooMany ∈ r.out ∧
        r.opened = false ∧ r.file = []) :=
  ⟨by decide,
   (third_attempt_is_never_accepted sampleKdf (fun _ _ _ _ => []) (fun n => List.replicate n 0)
     defaultFlags false "tokens.lst".toList false [] [97] [98] [97] [98] [97] []
     (by decide) (by decide)).1⟩

/-! ## The scan loop of the verifier -/

/-- The match is reported only for a record that reaches the decoder and has
the key derived from the passphrase. -/
theorem scanLoop_match_only_if (kdf : KeyFn) (debug : Bool) (input : Bytes) :
    ∀ (lines : List Str) (out : List CmpOut) (n : Nat),
      CmpOut.tokenMatches ∈ (scanLoop kdf debug input lines out n).out →
        CmpOut.tokenMatches ∈ out ∨ SomeRecordMatches kdf input lines := by
  intro lines
  induction lines with
  | nil => intro out n h; exact Or.inl (by simpa [scanLoop] using h)
  | cons line rest ih =>
    intro out n h
    have lift : SomeRecordMatches kdf input rest → SomeRecordMatches kdf input (line :: rest) := by
      rintro ⟨l, hl, hrest⟩
      exact ⟨l, by simp [hl], hrest⟩
    unfold scanLoop at h
    split at h
    · rcases ih _ _ h with h' | h'
      · exact Or.inl h'
      · exact Or.inr (lift h')
    · rename_i hskip
      cases hp : parsePbdkf2Hash line with
      | indexOutOfRange =>
        simp only [hp] at h
        cases debug <;> simp at h <;> exact Or.inl h
      | error e =>
        simp only [hp] at h
        rcases ih _ _ h with h' | h'
        · cases debug <;> simp at h' <;> exact Or.inl h'
        · exact Or.inr (lift h')
      | ok hashType keyLength iters salt derivedKey =>
        simp only [hp] at h
        by_cases hm : derivedKey = (kdf input salt iters keyLength).getD []
        · exact Or.inr ⟨line, by simp, hskip, hashType, keyLength, iters, salt, derivedKey, hp, hm⟩
        · simp only [hm, if_false] at h
          rcases ih _ _ h with h' | h'
          · cases debug <;> simp at h' <;> exact Or.inl h'
          · exact Or.inr (lift h')

/-- When no record matches and no line makes the decoder fail, the loop visits
every line, reports no match and lets `main` return. -/
theorem scanLoop_no_match (kdf : KeyFn) (debug : Bool) (input : Bytes) :
    ∀ (lines : List Str) (out : List CmpOut) (n : Nat),
      NoRecordMatches kdf input lines → NoFaultyLine lines →
        (scanLoop kdf debug input lines out n).term = .returned ∧
        (scanLoop kdf debug input lines out n).scanned = n + lines.length := by
  intro lines
  induction lines with
  | nil => intro out n _ _; simp [scanLoop]
  | cons line rest ih =>
    intro out n hno hfault
    have hno' : NoRecordMatches kdf input rest := fun l hl => hno l (by simp [hl])
    have hfault' : NoFaultyLine rest := fun l hl => hfault l (by simp [hl])
    have step : ∀ out', (scanLoop kdf debug input rest out' (n + 1)).term = .returned ∧
        (scanLoop kdf debug input rest out' (n + 1)).scanned = n + (line :: rest).length := by
      intro out'
      have := ih out' (n + 1) hno' hfault'
      simp only [List.length_cons]
      exact ⟨this.1, by omega⟩
    unfold scanLoop
    split
    · exact step _
    · rename_i hskip
      cases hp : parsePbdkf2Hash line with
      | indexOutOfRange => exact absurd hp (hfault line (by simp) hskip)
      | error e => exact step _
      | ok hashType keyLength iters salt derivedKey =>
        have hm := hno line (by simp) hskip _ _ _ _ _ hp
        simp only [hm, if_false]
        exact step _

/-- When no line makes the decoder fail, `main` returns from the loop, with or
without a match. -/
theorem scanLoop_returns (kdf : KeyFn) (debug : Bool) (input : Bytes) :
    ∀ (lines : List Str) (out : List CmpOut) (n : Nat),
      NoFaultyLine lines → (scanLoop kdf debug input lines out n).term = .returned := by
  intro lines
  induction lines with
  | nil => intro out n _; simp [scanLoop]
  | cons line rest ih =>
    intro out n hfault
    have hfault' : NoFaultyLine rest := fun l hl => hfault l (by simp [hl])
    unfold scanLoop
    split
    · exact ih _ _ hfault'
    · rename_i hskip
      cases hp : parsePbdkf2Hash line with
      | indexOutOfRange => exact absurd hp (hfault line (by simp) hskip)
      | error e => exact ih _ _ hfault'
      | ok hashType keyLength iters salt derivedKey =>
        simp only
        split
        · rfl
        · exact ih _ _ hfault'

/-- A store whose lines are all shorter than the buffer of the scanner is
delivered whole. -/
theorem scannerDelivers_of_short (store : List Str)
    (hshort : ∀ l ∈ store, byteLen l < maxScanTokenSize) :
    scannerDelivers store = store.map dropCR := by
  unfold scannerDelivers
  congr 1
  apply List.takeWhile_eq_self_iff.mpr
  intro l hl
  simpa using hshort l hl

theorem utf8EncodeChar_length_le (c : Char) : (String.utf8EncodeChar c).length ≤ 4 := by
  simp only [String.utf8EncodeChar]
  split_ifs <;> simp

theorem byteLen_le (l : Str) : byteLen l ≤ 4 * l.length := by
  induction l with
  | nil => simp [byteLen, strBytes]
  | cons c cs ih =>
    have hc := utf8EncodeChar_length_le c
    simp only [byteLen, strBytes, List.flatMap_cons, List.length_append, List.length_map,
      List.length_cons] at ih ⊢
    omega

/-- A line of fewer than 16384 characters fits the buffer of the scanner. -/
theorem byteLen_lt_of_length {l : Str} (h : 4 * l.length < maxScanTokenSize) :
    byteLen l < maxScanTokenSize :=
  Nat.lt_of_le_of_lt (byteLen_le l) h

/-! ## What a returned record says about the line -/

/-- Inversion of the decoder: a returned record comes from a line with at
least four fields, a supported key length after the `+` of the first field,
an integer in the second field and base64 text in the third and fourth. -/
theorem parsePbdkf2Hash_ok_inv {line : Str} {hashType : Str} {keyLength iters : Int}
    {salt derivedKey : Bytes}
    (h : parsePbdkf2Hash line = .ok hashType keyLength iters salt derivedKey) :
    ∃ f0 f1 f2 f3 bitsText,
      (stringsSplit ':' line)[0]? = some f0 ∧
      (stringsSplit '+' (stringsReplaceAllEmpty f0 tag))[1]? = some bitsText ∧
      (stringsSplit '+' (stringsReplaceAllEmpty f0 tag))[0]? = some hashType ∧
      strconvAtoi bitsText = .ok (8 * keyLength) ∧
      (keyLength = 16 ∨ keyLength = 32 ∨ keyLength = 64) ∧
      (stringsSplit ':' line)[1]? = some f1 ∧ strconvAtoi f1 = .ok iters ∧
      (stringsSplit ':' line)[2]? = some f2 ∧ b64Decode f2 = some salt ∧
      (stringsSplit ':' line)[3]? = some f3 ∧ b64Decode f3 = some derivedKey := by
  unfold parsePbdkf2Hash at h
  simp only at h
  split at h
  · cases h
  rename_i f0 hf0
  split at h
  · cases h
  rename_i bitsText hbits
  split at h
  · cases h
  rename_i keyBytes hkb
  split at h
  · cases h
  rename_i kl hkl
  split at h
  · cases h
  rename_i ht hht
  split at h
  · cases h
  rename_i f1 hf1
  split at h
  · cases h
  rename_i it hit
  split at h
  · cases h
  rename_i f2 hf2
  split at h
  · cases h
  rename_i s hs
  split at h
  · cases h
  rename_i f3 hf3
  split at h
  · cases h
  rename_i dk hdk
  simp only [ParseResult.ok.injEq] at h
  obtain ⟨rfl, rfl, rfl, rfl, rfl⟩ := h
  refine ⟨f0, f1, f2, f3, bitsText, hf0, hbits, hht, ?_, ?_, hf1, hit, hf2, hs, hf3, hdk⟩
  · rw [hkb]
    split at hkl
    · rename_i e; simp only [Option.some.injEq] at hkl; subst hkl; rw [e]; rfl
    · split at hkl
      · rename_i e; simp only [Option.some.injEq] at hkl; subst hkl; rw [e]; rfl
      · split at hkl
        · rename_i e; simp only [Option.some.injEq] at hkl; subst hkl; rw [e]; rfl
        · cases hkl
  · split at hkl
    · simp only [Option.some.injEq] at hkl; omega
    · split at hkl
      · simp only [Option.some.injEq] at hkl; omega
      · split at hkl
        · simp only [Option.some.injEq] at hkl; omega
        · cases hkl

theorem no_tag_of_short {h : Str} (hlen : h.length < tag.length) :
    ∀ u v : Str, h ≠ u ++ tag ++ v := by
  intro u v e
  have := congrArg List.length e
  simp only [List.length_append] at this
  omega

/-- The decoder after a well-formed first field: the remaining fields are
examined in turn. -/
theorem parsePbdkf2Hash_of_first (line h : Str) (bits : Int) (rest : List Str)
    (hplus : '+' ∉ h) (htag : ∀ u v : Str, h ≠ u ++ tag ++ v)
    (hbits : bits = 128 ∨ bits = 256 ∨ bits = 512)
    (hparts : stringsSplit ':' line = (tag ++ (h ++ '+' :: fmtInt bits)) :: rest) :
    parsePbdkf2Hash line
      = match rest[0]? with
        | none => .indexOutOfRange
        | some f1 =>
          match strconvAtoi f1 with
          | .error e => .error (.invalidIterationCount e)
          | .ok iters =>
            match rest[1]? with
            | none => .indexOutOfRange
            | some f2 =>
              match b64Decode f2 with
              | none => .error .cannotDecodeSalt
              | some salt =>
                match rest[2]? with
                | none => .indexOutOfRange
                | some f3 =>
                  match b64Decode f3 with
                  | none => .error .cannotDecodeDerivedKey
                  | some derivedKey => .ok h (bits / 8) iters salt derivedKey := by
  have hb1 : '+' ∉ fmtInt bits := by rcases hbits with rfl | rfl | rfl <;> decide
  have hb2 : (fmtInt bits).length + 1 < tag.length := by
    rcases hbits with rfl | rfl | rfl <;> decide
  have hb3 : strconvAtoi (fmtInt bits) = .ok bits :=
    strconvAtoi_fmtInt bits (by rcases hbits with rfl | rfl | rfl <;> decide)
      (by rcases hbits with rfl | rfl | rfl <;> decide)
  have hrep : stringsReplaceAllEmpty (tag ++ (h ++ '+' :: fmtInt bits)) tag
      = h ++ '+' :: fmtInt bits := by
    rw [replaceAll_tag_append]
    exact replaceAll_of_no_occurrence _ (no_occurrence_append '+' (by decide) htag hb2)
  have hsplit : stringsSplit '+' (h ++ '+' :: fmtInt bits) = [h, fmtInt bits] := by
    rw [stringsSplit_append _ hplus, stringsSplit_of_not_mem hb1]
  simp only [parsePbdkf2Hash]
  rw [hparts]
  simp only [List.getElem?_cons_zero, List.getElem?_cons_succ, hrep, hsplit, hb3]
  rcases hbits with rfl | rfl | rfl <;> simp

/-- The fields of a line that starts with a colon-free first field followed by
a colon, a colon-free second field, and then nothing or a further colon. -/
theorem stringsSplit_two_fields (f0 f1 tail : Str) (h0 : ':' ∉ f0) (h1 : ':' ∉ f1)
    (htail : tail = [] ∨ tail.head? = some ':') :
    ∃ rest, stringsSplit ':' (f0 ++ [':'] ++ f1 ++ tail) = f0 :: f1 :: rest := by
  have e : f0 ++ [':'] ++ f1 ++ tail = f0 ++ ':' :: (f1 ++ tail) := by simp
  rw [e, stringsSplit_append _ h0]
  rcases htail with rfl | ht
  · exact ⟨[], by rw [List.append_nil, stringsSplit_of_not_mem h1]⟩
  · cases tail with
    | nil => simp at ht
    | cons c t =>
      simp only [List.head?_cons, Option.some.injEq] at ht
      subst ht
      exact ⟨stringsSplit ':' t, by rw [stringsSplit_append _ h1]⟩

/-! ## Claims on the record decoder -/

/-- C8 (iteration count validation), counterexample.  The line
`{X-PBDKF2}HMACSHA3+512:0:AQ==:Ag==` has a well-formed first field and the
second field `0`, which is not a positive integer; the decoder returns a record
with zero iterations and no error.  The same holds for `-5`. -/
theorem zero_iterations_accepted :
    parsePbdkf2Hash "\x7bX-PBDKF2\x7dHMACSHA3+512:0:AQ==:Ag==".toList
        = .ok "HMACSHA3".toList 64 0 [1] [2] ∧
    parsePbdkf2Hash "\x7bX-PBDKF2\x7dHMACSHA3+512:-5:AQ==:Ag==".toList
        = .ok "HMACSHA3".toList 64 (-5) [1] [2] := by
  decide

/-- C8 (iteration count validation), amended.  For every line whose first
field is well formed (tag, hash type, `+`, supported key length) and whose
second field is `f1`: the decoder returns the error `invalid iteration count`
exactly when `f1` is not a decimal numeral, with an optional sign, of an
integer in the range of `int`; and every record it returns has as iterations
the integer that `f1` denotes, whatever its sign. -/
theorem iteration_count_validation (h f1 tail : Str) (bits : Int)
    (hcolon : ':' ∉ h) (hplus : '+' ∉ h) (htag : ∀ u v : Str, h ≠ u ++ tag ++ v)
    (hbits : bits = 128 ∨ bits = 256 ∨ bits = 512)
    (hf1 : ':' ∉ f1) (htail : tail = [] ∨ tail.head? = some ':') :
    ((∃ e, parsePbdkf2Hash (tag ++ h ++ ['+'] ++ fmtInt bits ++ [':'] ++ f1 ++ tail)
          = .error (.invalidIterationCount e))
        ↔ ¬ ∃ n, DenotesInt f1 n ∧ InIntRange n) ∧
    (∀ hashType keyLength iters salt derivedKey,
      parsePbdkf2Hash (tag ++ h ++ ['+'] ++ fmtInt bits ++ [':'] ++ f1 ++ tail)
          = .ok hashType keyLength iters salt derivedKey →
        DenotesInt f1 iters ∧ InIntRange iters) := by
  have hf0 : ':' ∉ tag ++ (h ++ '+' :: fmtInt bits) := by
    have := fmtInt_no_colon bits
    have ht : ':' ∉ tag := by decide
    simp [ht, hcolon, this]
  have e : tag ++ h ++ ['+'] ++ fmtInt bits ++ [':'] ++ f1 ++ tail
      = tag ++ (h ++ '+' :: fmtInt bits) ++ [':'] ++ f1 ++ tail := by simp
  obtain ⟨rest, hparts⟩ := stringsSplit_two_fields _ f1 tail hf0 hf1 htail
  rw [e, parsePbdkf2Hash_of_first _ h bits (f1 :: rest) hplus htag hbits hparts]
  simp only [List.getElem?_cons_zero, List.getElem?_cons_succ]
  cases ha : strconvAtoi f1 with
  | error err =>
    have hnot : ¬ ∃ n, DenotesInt f1 n ∧ InIntRange n := by
      rintro ⟨n, hn⟩
      rw [(strconvAtoi_ok_iff f1 n).mpr hn] at ha
      cases ha
    simp only [ParseResult.error.injEq, ParseError.invalidIterationCount.injEq, exists_eq',
      true_iff, reduceCtorEq, false_imp_iff, implies_true, and_true]
    exact hnot
  | ok it =>
    have hden := (strconvAtoi_ok_iff f1 it).mp ha
    constructor
    · constructor
      · rintro ⟨err, he⟩
        exfalso
        revert he
        simp only
        split
        · simp
        · split
          · simp
          · split
            · simp
            · split <;> simp
      · intro hn
        exact absurd ⟨it, hden⟩ hn
    · intro hashType keyLength iters salt derivedKey hok
      revert hok
      simp only
      split
      · simp
      · split
        · simp
        · split
          · simp
          · split
            · simp
            · simp only [ParseResult.ok.injEq]
              rintro ⟨_, _, rfl, _, _⟩
              exact hden

/-- The validation of the iteration count at the second field `ten`. -/
theorem iteration_count_validation_witness :
    (∃ e, parsePbdkf2Hash
        (tag ++ "HMACSHA3".toList ++ ['+'] ++ fmtInt 512 ++ [':'] ++ "ten".toList
          ++ ":AQ==:Ag==".toList) = .error (.invalidIterationCount e))
      ↔ ¬ ∃ n, DenotesInt "ten".toList n ∧ InIntRange n :=
  (iteration_count_validation "HMACSHA3".toList "ten".toList ":AQ==:Ag==".toList 512
    (by decide) (by decide) (no_tag_of_short (by decide)) (by decide) (by decide)
    (by decide)).1

/-- C10 (length invariant on decoded records), counterexample.  The line
`{X-PBDKF2}HMACSHA3+512:1:AQ==:Ag==` is decoded without error into a record
with key length 64 and a derived key of one byte. -/
theorem decoded_key_length_unchecked :
    parsePbdkf2Hash "\x7bX-PBDKF2\x7dHMACSHA3+512:1:AQ==:Ag==".toList
        = .ok "HMACSHA3".toList 64 1 [1] [2] ∧
    (([2] : Bytes).length : Int) ≠ 64 := by
  decide

/-- C10 (length invariant on decoded records), amended.  For every line, if
the decoder returns a record, then the returned key length is 16, 32 or 64 and
is one eighth of the number of bits written after the `+` of the first field,
and the returned derived key is the base64 decoding of the fourth field; the
number of its bytes is whatever that text decodes to. -/
theorem decoded_key_length_from_tag (line : Str) (hashType : Str) (keyLength iters : Int)
    (salt derivedKey : Bytes)
    (h : parsePbdkf2Hash line = .ok hashType keyLength iters salt derivedKey) :
    (keyLength = 16 ∨ keyLength = 32 ∨ keyLength = 64) ∧
    (∃ f0 bitsText, (stringsSplit ':' line)[0]? = some f0 ∧
      (stringsSplit '+' (stringsReplaceAllEmpty f0 tag))[1]? = some bitsText ∧
      strconvAtoi bitsText = .ok (8 * keyLength)) ∧
    (∃ f3, (stringsSplit ':' line)[3]? = some f3 ∧ b64Decode f3 = some derivedKey) := by
  obtain ⟨f0, f1, f2, f3, bitsText, h0, hb, _, hbits, hkl, _, _, _, _, h3, hdk⟩ :=
    parsePbdkf2Hash_ok_inv h
  exact ⟨hkl, ⟨f0, bitsText, h0, hb, hbits⟩, ⟨f3, h3, hdk⟩⟩

/-- The facts on a returned record at the line `{X-PBDKF2}HMACSHA3+512:1:AQ==:Ag==`. -/
theorem decoded_key_length_from_tag_witness :
    (((64 : Int) = 16 ∨ (64 : Int) = 32 ∨ (64 : Int) = 64)) ∧
    (∃ f0 bitsText,
      (stringsSplit ':' "\x7bX-PBDKF2\x7dHMACSHA3+512:1:AQ==:Ag==".toList)[0]? = some f0 ∧
      (stringsSplit '+' (stringsReplaceAllEmpty f0 tag))[1]? = some bitsText ∧
      strconvAtoi bitsText = .ok (8 * 64)) ∧
    (∃ f3, (stringsSplit ':' "\x7bX-PBDKF2\x7dHMACSHA3+512:1:AQ==:Ag==".toList)[3]? = some f3 ∧
      b64Decode f3 = some [2]) :=
  decoded_key_length_from_tag "\x7bX-PBDKF2\x7dHMACSHA3+512:1:AQ==:Ag==".toList
    "HMACSHA3".toList 64 1 [1] [2] (by decide)

/-- C3 (decoding the documented textual form), counterexample.  The line of
the documented form with the decimal integer `9223372036854775808` as iteration
count is rejected with `invalid iteration count`: the numeral does not fit the
type `int`. -/
theorem large_iteration_count_rejected :
    recordLine "HMACSHA3".toList 512 9223372036854775808 [1] [2]
        = "\x7bX-PBDKF2\x7dHMACSHA3+512:9223372036854775808:AQ==:Ag==".toList ∧
    parsePbdkf2Hash (recordLine "HMACSHA3".toList 512 9223372036854775808 [1] [2])
        = .error (.invalidIterationCount .outOfRange) := by
  decide

/-- C3 (decoding the documented textual form), amended.  For every hash type
`h` that contains neither `:` nor `+` nor the tag, every number of bits in
128, 256, 512, every integer `n` in the range of `int` and all byte sequences
`salt` and `key`, the decoder applied to the line
`{X-PBDKF2}` `h` `+` bits `:` `n` `:` base64(salt) `:` base64(key) returns no
error and returns exactly `h`, bits/8, `n`, `salt` and `key`, where bits/8 is
16, 32 or 64. -/
theorem parsePbdkf2Hash_recordLine (h : Str) (bits n : Int) (salt key : Bytes)
    (hcolon : ':' ∉ h) (hplus : '+' ∉ h) (htag : ∀ u v : Str, h ≠ u ++ tag ++ v)
    (hbits : bits = 128 ∨ bits = 256 ∨ bits = 512) (hn : InIntRange n)
    (hsalt : IsBytes salt) (hkey : IsBytes key) :
    parsePbdkf2Hash (recordLine h bits n salt key) = .ok h (bits / 8) n salt key ∧
    (bits / 8 = 16 ∨ bits / 8 = 32 ∨ bits / 8 = 64) := by
  constructor
  · rw [recordLine, parsePbdkf2Hash_of_fields h _ _ _ bits hcolon hplus htag hbits
      (fmtInt_no_colon n) (b64Encode_no_colon salt) (b64Encode_no_colon key),
      strconvAtoi_fmtInt n hn.1 hn.2, b64Decode_encode salt hsalt, b64Decode_encode key hkey]
  · rcases hbits with rfl | rfl | rfl <;> decide

/-- The decoder at the documented form of the record with 100000 iterations, the salt 1, 2, 3, 4 and the key 255, 0. -/
theorem parsePbdkf2Hash_recordLine_witness :
    parsePbdkf2Hash (recordLine "HMACSHA3".toList 512 100000 [1, 2, 3, 4] [255, 0])
        = .ok "HMACSHA3".toList (512 / 8) 100000 [1, 2, 3, 4] [255, 0] ∧
    ((512 : Int) / 8 = 16 ∨ (512 : Int) / 8 = 32 ∨ (512 : Int) / 8 = 64) :=
  parsePbdkf2Hash_recordLine "HMACSHA3".toList 512 100000 [1, 2, 3, 4] [255, 0]
    (by decide) (by decide) (no_tag_of_short (by decide)) (by decide)
    ⟨by decide, by decide⟩ (by decide) (by decide)

/-- C4 (a malformed record never aborts the scan) fails.  The non-empty lines
`abc` (no `+` in the first field) and `{X-PBDKF2}HMACSHA3+512:100000:AQ==`
(three fields) make the decoder index a slice out of range; the verifier then
panics at that line, whatever lines follow: they are not scanned, no parse
error is printed and no match is reported. -/
theorem malformed_line_aborts_scan (kdf : KeyFn) (debug : Bool) (pass : Bytes)
    (rest : List Str) :
    parsePbdkf2Hash "abc".toList = .indexOutOfRange ∧
    parsePbdkf2Hash "\x7bX-PBDKF2\x7dHMACSHA3+512:100000:AQ==".toList = .indexOutOfRange ∧
    (cmptokenMain kdf debug (some ("abc".toList :: rest)) [pass]).term = .panicked ∧
    (cmptokenMain kdf debug (some ("abc".toList :: rest)) [pass]).term.exitCode = 2 ∧
    (cmptokenMain kdf debug (some ("abc".toList :: rest)) [pass]).scanned = 1 ∧
    CmpOut.tokenMatches ∉ (cmptokenMain kdf debug (some ("abc".toList :: rest)) [pass]).out ∧
    (∀ e, CmpOut.errorParsing e ∉
      (cmptokenMain kdf debug (some ("abc".toList :: rest)) [pass]).out) := by
  have hp : parsePbdkf2Hash "abc".toList = .indexOutOfRange := by decide
  have hskip : ¬ ("abc".toList = [] ∨ "abc".toList.head? = some '#') := by decide
  refine ⟨hp, by decide, ?_⟩
  simp only [cmptokenMain, scanLoop, hskip, if_false, hp]
  cases debug <;> simp [Termination.exitCode]

/-! ## Claims on the verification workflow -/

theorem cmptokenMain_out_no_match (kdf : KeyFn) (debug : Bool) (lines : List Str)
    (stdin : List Bytes)
    (h : CmpOut.tokenMatches ∈ (cmptokenMain kdf debug (some lines) stdin).out) :
    SomeRecordMatches kdf (readPassword stdin).1 lines := by
  simp only [cmptokenMain] at h
  rcases scanLoop_match_only_if kdf debug _ lines _ 0 h with h' | h'
  · cases debug <;> simp at h'
  · exact h'

/-- C7 (no match means failure), counterexample.  The store holds the single
record `{X-PBDKF2}HMACSHA3+512:1:AQ==:Ag==`, whose derived key is the one byte
`2`, and the passphrase is `p`; the key derived for that record differs from
the stored one.  The verifier scans the line, reports no match, and `main`
returns: the exit code is 0. -/
theorem no_match_exits_zero :
    parsePbdkf2Hash "\x7bX-PBDKF2\x7dHMACSHA3+512:1:AQ==:Ag==".toList
        = .ok "HMACSHA3".toList 64 1 [1] [2] ∧
    (sampleKdf [112] [1] 1 64).getD [] ≠ [2] ∧
    (cmptokenMain sampleKdf false
        (some ["\x7bX-PBDKF2\x7dHMACSHA3+512:1:AQ==:Ag==".toList]) [[112]]).scanned = 1 ∧
    CmpOut.tokenMatches ∉ (cmptokenMain sampleKdf false
        (some ["\x7bX-PBDKF2\x7dHMACSHA3+512:1:AQ==:Ag==".toList]) [[112]]).out ∧
    (cmptokenMain sampleKdf false
        (some ["\x7bX-PBDKF2\x7dHMACSHA3+512:1:AQ==:Ag==".toList]) [[112]]).term.exitCode = 0 := by
  decide

/-- C7 (no match means failure), amended.  For every passphrase and every
readable store whose lines are all shorter than the 64 KiB buffer of the
scanner and in which no line makes the decoder fail with an index out of
range: `main` returns and the exit code is 0, whether or not a record matches;
if no decodable record has the key derived from the passphrase, the verifier
scans all lines of the store and does not report `Token matches!`; and
`Token matches!` is reported only when some record matched. -/
theorem verification_without_match (kdf : KeyFn) (debug : Bool) (pass : Bytes)
    (stdinRest : List Bytes) (store : List Str)
    (hshort : ∀ l ∈ store, byteLen l < maxScanTokenSize)
    (hfault : NoFaultyLine (scannerDelivers store)) :
    ((cmptokenMain kdf debug (some (scannerDelivers store)) (pass :: stdinRest)).term
        = .returned ∧
      (cmptokenMain kdf debug (some (scannerDelivers store)) (pass :: stdinRest)).term.exitCode
        = 0) ∧
    (NoRecordMatches kdf pass (scannerDelivers store) →
      (cmptokenMain kdf debug (some (scannerDelivers store)) (pass :: stdinRest)).scanned
          = store.length ∧
      CmpOut.tokenMatches ∉
        (cmptokenMain kdf debug (some (scannerDelivers store)) (pass :: stdinRest)).out) ∧
    (∀ delivered : List Str,
      CmpOut.tokenMatches ∈
          (cmptokenMain kdf debug (some delivered) (pass :: stdinRest)).out →
        SomeRecordMatches kdf pass delivered) := by
  have hterm : (cmptokenMain kdf debug (some (scannerDelivers store)) (pass :: stdinRest)).term
      = .returned := by
    simp only [cmptokenMain]
    exact scanLoop_returns kdf debug _ _ _ 0 hfault
  refine ⟨⟨hterm, by rw [hterm]; rfl⟩, ?_, ?_⟩
  · intro hno
    constructor
    · have hrun := scanLoop_no_match kdf debug pass (scannerDelivers store)
        (if debug then [CmpOut.promptPassphrase, CmpOut.newline] ++ [.dbgEntered pass]
          else [CmpOut.promptPassphrase, CmpOut.newline]) 0 hno hfault
      have hlen : (scannerDelivers store).length = store.length := by
        rw [scannerDelivers_of_short store hshort, List.length_map]
      simpa [cmptokenMain, readPassword, hlen] using hrun.2
    · intro hm
      obtain ⟨l, hl, hskip, ht, kl, it, s, dk, hp, hk⟩ :=
        cmptokenMain_out_no_match kdf debug (scannerDelivers store) _ hm
      exact hno l hl hskip ht kl it s dk hp hk
  · intro delivered hm
    exact cmptokenMain_out_no_match kdf debug delivered _ hm

theorem sample_store_delivered :
    scannerDelivers ["\x7bX-PBDKF2\x7dHMACSHA3+512:1:AQ==:Ag==".toList]
      = ["\x7bX-PBDKF2\x7dHMACSHA3+512:1:AQ==:Ag==".toList] := by
  decide

theorem sample_store_short :
    ∀ l ∈ ["\x7bX-PBDKF2\x7dHMACSHA3+512:1:AQ==:Ag==".toList], byteLen l < maxScanTokenSize := by
  decide

theorem sample_store_no_match :
    NoRecordMatches sampleKdf [112]
      (scannerDelivers ["\x7bX-PBDKF2\x7dHMACSHA3+512:1:AQ==:Ag==".toList]) := by
  rw [sample_store_delivered]
  intro l hl _ ht kl it s dk hp
  simp only [List.mem_singleton] at hl
  subst hl
  have he : parsePbdkf2Hash "\x7bX-PBDKF2\x7dHMACSHA3+512:1:AQ==:Ag==".toList
      = .ok "HMACSHA3".toList 64 1 [1] [2] := by decide
  rw [he] at hp
  simp only [ParseResult.ok.injEq] at hp
  obtain ⟨_, rfl, rfl, rfl, rfl⟩ := hp
  decide

theorem sample_store_no_fault :
    NoFaultyLine (scannerDelivers ["\x7bX-PBDKF2\x7dHMACSHA3+512:1:AQ==:Ag==".toList]) := by
  rw [sample_store_delivered]
  intro l hl _
  simp only [List.mem_singleton] at hl
  subst hl
  decide

/-- The verifier at the passphrase `p` and a store of one record that does not match. -/
theorem verification_without_match_witness :
    ((cmptokenMain sampleKdf false
        (some (scannerDelivers ["\x7bX-PBDKF2\x7dHMACSHA3+512:1:AQ==:Ag==".toList]))
        ([112] :: [])).term = .returned ∧
      (cmptokenMain sampleKdf false
        (some (scannerDelivers ["\x7bX-PBDKF2\x7dHMACSHA3+512:1:AQ==:Ag==".toList]))
        ([112] :: [])).term.exitCode = 0) ∧
    ((cmptokenMain sampleKdf false
        (some (scannerDelivers ["\x7bX-PBDKF2\x7dHMACSHA3+512:1:AQ==:Ag==".toList]))
        ([112] :: [])).scanned
          = ["\x7bX-PBDKF2\x7dHMACSHA3+512:1:AQ==:Ag==".toList].length ∧
      CmpOut.tokenMatches ∉ (cmptokenMain sampleKdf false
        (some (scannerDelivers ["\x7bX-PBDKF2\x7dHMACSHA3+512:1:AQ==:Ag==".toList]))
        ([112] :: [])).out) :=
  ⟨(verification_without_match sampleKdf false [112] []
      ["\x7bX-PBDKF2\x7dHMACSHA3+512:1:AQ==:Ag==".toList]
      sample_store_short sample_store_no_fault).1,
   (verification_without_match sampleKdf false [112] []
      ["\x7bX-PBDKF2\x7dHMACSHA3+512:1:AQ==:Ag==".toList]
      sample_store_short sample_store_no_fault).2.1 sample_store_no_match⟩

/-- The verifier on a store of two lines, the first with an unsupported key
length and the second a record that matches the passphrase. -/
theorem cmptokenMain_bad_then_good (kdf : KeyFn) (debug : Bool) (pass : Bytes)
    (stdinRest : List Bytes) (good bad hashType : Str) (keyLength iters bits : Int)
    (salt derivedKey : Bytes)
    (hgood : parsePbdkf2Hash good = .ok hashType keyLength iters salt derivedKey)
    (hkey : derivedKey = (kdf pass salt iters keyLength).getD [])
    (hg : ¬ IsSkipped good)
    (hbad : parsePbdkf2Hash bad = .error (.unsupportedKeyLength bits))
    (hb : ¬ IsSkipped bad) :
    CmpOut.tokenMatches ∈ (cmptokenMain kdf debug (some [bad, good]) (pass :: stdinRest)).out ∧
    (cmptokenMain kdf debug (some [bad, good]) (pass :: stdinRest)).out.countP
        CmpOut.isErrorParsing = 1 ∧
    (cmptokenMain kdf debug (some [bad, good]) (pass :: stdinRest)).scanned = 2 ∧
    (cmptokenMain kdf debug (some [bad, good]) (pass :: stdinRest)).term = .returned := by
  simp only [IsSkipped] at hg hb
  simp only [cmptokenMain, scanLoop, readPassword, hg, hb, if_false, hgood, hbad, ← hkey, if_true]
  cases debug <;> simp [CmpOut.isErrorParsing, List.countP_cons]

/-- The verifier on a store of two lines, the first a record that matches the
passphrase: the scan stops there. -/
theorem cmptokenMain_good_then_any (kdf : KeyFn) (debug : Bool) (pass : Bytes)
    (stdinRest : List Bytes) (good : Str) (rest : List Str) (hashType : Str)
    (keyLength iters : Int) (salt derivedKey : Bytes)
    (hgood : parsePbdkf2Hash good = .ok hashType keyLength iters salt derivedKey)
    (hkey : derivedKey = (kdf pass salt iters keyLength).getD [])
    (hg : ¬ IsSkipped good) :
    CmpOut.tokenMatches ∈ (cmptokenMain kdf debug (some (good :: rest)) (pass :: stdinRest)).out ∧
    (cmptokenMain kdf debug (some (good :: rest)) (pass :: stdinRest)).out.countP
        CmpOut.isErrorParsing = 0 ∧
    (cmptokenMain kdf debug (some (good :: rest)) (pass :: stdinRest)).scanned = 1 ∧
    (cmptokenMain kdf debug (some (good :: rest)) (pass :: stdinRest)).term = .returned := by
  simp only [IsSkipped] at hg
  simp only [cmptokenMain, scanLoop, readPassword, hg, if_false, hgood, ← hkey, if_true]
  cases debug <;> simp [CmpOut.isErrorParsing, List.countP_cons]

/-- C9 (malformed-line tolerance), counterexample.  The store holds first the
well-formed record for the passphrase `p` (its derived key is the key derived
from `p` with its salt, iteration count and key length) and then the line
`{X-PBDKF2}HMACSHA3+999:1:AQ==:Ag==` with an unsupported key length.  The
verifier reports the match at the first line and stops: only one line is
scanned and no parse error is reported, not exactly one. -/
theorem good_line_first_no_parse_error :
    parsePbdkf2Hash (recordLine "HMACSHA3".toList 512 1 [1] (List.replicate 64 114))
        = .ok "HMACSHA3".toList 64 1 [1] (List.replicate 64 114) ∧
    (sampleKdf [112] [1] 1 64).getD [] = List.replicate 64 114 ∧
    parsePbdkf2Hash "\x7bX-PBDKF2\x7dHMACSHA3+999:1:AQ==:Ag==".toList
        = .error (.unsupportedKeyLength 999) ∧
    CmpOut.tokenMatches ∈ (cmptokenMain sampleKdf false
        (some [recordLine "HMACSHA3".toList 512 1 [1] (List.replicate 64 114),
               "\x7bX-PBDKF2\x7dHMACSHA3+999:1:AQ==:Ag==".toList]) [[112]]).out ∧
    (cmptokenMain sampleKdf false
        (some [recordLine "HMACSHA3".toList 512 1 [1] (List.replicate 64 114),
               "\x7bX-PBDKF2\x7dHMACSHA3+999:1:AQ==:Ag==".toList]) [[112]]).out.countP
        CmpOut.isErrorParsing = 0 ∧
    (cmptokenMain sampleKdf false
        (some [recordLine "HMACSHA3".toList 512 1 [1] (List.replicate 64 114),
               "\x7bX-PBDKF2\x7dHMACSHA3+999:1:AQ==:Ag==".toList]) [[112]]).scanned = 1 := by
  decide

/-- C9 (malformed-line tolerance), amended.  For every passphrase and every
store made of exactly two lines, each shorter than the 64 KiB buffer of the
scanner, one a well-formed record whose derived key is the key derived from
the passphrase with the parameters of that record and one a line with an
unsupported key length: in either order the verifier reports a match; it
reports exactly one parse error when the line with the unsupported key length
comes first, and none when the well-formed record comes first, because the
scan stops at the first match. -/
theorem malformed_line_tolerance (kdf : KeyFn) (debug : Bool) (pass : Bytes)
    (stdinRest : List Bytes) (good bad hashType : Str) (keyLength iters bits : Int)
    (salt derivedKey : Bytes)
    (hgoodShort : byteLen good < maxScanTokenSize)
    (hbadShort : byteLen bad < maxScanTokenSize)
    (hgood : parsePbdkf2Hash (dropCR good) = .ok hashType keyLength iters salt derivedKey)
    (hkey : derivedKey = (kdf pass salt iters keyLength).getD [])
    (hg : ¬ IsSkipped (dropCR good))
    (hbad : parsePbdkf2Hash (dropCR bad) = .error (.unsupportedKeyLength bits))
    (hb : ¬ IsSkipped (dropCR bad)) :
    (CmpOut.tokenMatches ∈
        (cmptokenMain kdf debug (some (scannerDelivers [bad, good])) (pass :: stdinRest)).out ∧
      (cmptokenMain kdf debug (some (scannerDelivers [bad, good])) (pass :: stdinRest)).out.countP
          CmpOut.isErrorParsing = 1 ∧
      (cmptokenMain kdf debug (some (scannerDelivers [bad, good])) (pass :: stdinRest)).scanned
          = 2) ∧
    (CmpOut.tokenMatches ∈
        (cmptokenMain kdf debug (some (scannerDelivers [good, bad])) (pass :: stdinRest)).out ∧
      (cmptokenMain kdf debug (some (scannerDelivers [good, bad])) (pass :: stdinRest)).out.countP
          CmpOut.isErrorParsing = 0 ∧
      (cmptokenMain kdf debug (some (scannerDelivers [good, bad])) (pass :: stdinRest)).scanned
          = 1) := by
  have hbg : scannerDelivers [bad, good] = [dropCR bad, dropCR good] := by
    rw [scannerDelivers_of_short [bad, good] (by simp [hgoodShort, hbadShort])]
    rfl
  have hgb : scannerDelivers [good, bad] = [dropCR good, dropCR bad] := by
    rw [scannerDelivers_of_short [good, bad] (by simp [hgoodShort, hbadShort])]
    rfl
  have h1 := cmptokenMain_bad_then_good kdf debug pass stdinRest (dropCR good) (dropCR bad)
    hashType keyLength iters bits salt derivedKey hgood hkey hg hbad hb
  have h2 := cmptokenMain_good_then_any kdf debug pass stdinRest (dropCR good) [dropCR bad]
    hashType keyLength iters salt derivedKey hgood hkey hg
  rw [hbg, hgb]
  exact ⟨⟨h1.1, h1.2.1, h1.2.2.1⟩, ⟨h2.1, h2.2.1, h2.2.2.1⟩⟩

/-- The verifier at the passphrase `p` and a store with the malformed line first and the matching record second. -/
theorem malformed_line_tolerance_witness :
    CmpOut.tokenMatches ∈ (cmptokenMain sampleKdf false
        (some (scannerDelivers ["\x7bX-PBDKF2\x7dHMACSHA3+999:1:AQ==:Ag==".toList,
               recordLine "HMACSHA3".toList 512 1 [1] (List.replicate 64 114)]))
        ([112] :: [])).out ∧
    (cmptokenMain sampleKdf false
        (some (scannerDelivers ["\x7bX-PBDKF2\x7dHMACSHA3+999:1:AQ==:Ag==".toList,
               recordLine "HMACSHA3".toList 512 1 [1] (List.replicate 64 114)]))
        ([112] :: [])).out.countP CmpOut.isErrorParsing = 1 ∧
    (cmptokenMain sampleKdf false
        (some (scannerDelivers ["\x7bX-PBDKF2\x7dHMACSHA3+999:1:AQ==:Ag==".toList,
               recordLine "HMACSHA3".toList 512 1 [1] (List.replicate 64 114)]))
        ([112] :: [])).scanned = 2 :=
  (malformed_line_tolerance sampleKdf false [112] []
    (recordLine "HMACSHA3".toList 512 1 [1] (List.replicate 64 114))
    "\x7bX-PBDKF2\x7dHMACSHA3+999:1:AQ==:Ag==".toList "HMACSHA3".toList 64 1 999 [1]
    (List.replicate 64 114) (byteLen_lt_of_length (by decide)) (byteLen_lt_of_length (by decide))
    (by decide) (by decide) (by decide) (by decide) (by decide)).1

/-! ## The record the generator writes, read by the decoder -/

/-- The line `cmd/mktoken` writes, without its line feed. -/
theorem fmtToken_dropLast (hashType : Str) (cipherLength iters : Int) (salt dk : Bytes) :
    (fmtToken hashType cipherLength iters salt dk).dropLast
      = tag ++ hashType ++ ['+'] ++ fmtInt cipherLength ++ [':'] ++ fmtInt iters ++ [':']
          ++ fmtHex salt ++ [':'] ++ fmtHex dk := by
  rw [fmtToken, List.dropLast_concat]

/-- What the decoder returns for a line of `cmd/mktoken`: when it returns a
record at all, the key length is that of the tag and the derived key has three
bytes for every two bytes of the key that was written in hexadecimal. -/
theorem parsePbdkf2Hash_hex_line (h : Str) (bits iters : Int) (salt dk : Bytes)
    (hcolon : ':' ∉ h) (hplus : '+' ∉ h) (htag : ∀ u v : Str, h ≠ u ++ tag ++ v)
    (hbits : bits = 128 ∨ bits = 256 ∨ bits = 512)
    (hashType : Str) (keyLength it : Int) (s k : Bytes)
    (hok : parsePbdkf2Hash (tag ++ h ++ ['+'] ++ fmtInt bits ++ [':'] ++ fmtInt iters ++ [':']
          ++ fmtHex salt ++ [':'] ++ fmtHex dk) = .ok hashType keyLength it s k) :
    keyLength = bits / 8 ∧ 2 * k.length = 3 * dk.length := by
  rw [parsePbdkf2Hash_of_fields h _ _ _ bits hcolon hplus htag hbits
      (fmtInt_no_colon iters) (fmtHex_no_colon salt) (fmtHex_no_colon dk)] at hok
  split at hok
  · cases hok
  · split at hok
    · cases hok
    · split at hok
      · cases hok
      · rename_i k' hk'
        simp only [ParseResult.ok.injEq] at hok
        obtain ⟨_, rfl, _, _, rfl⟩ := hok
        exact ⟨rfl, b64Decode_fmtHex_length dk _ hk'⟩

/-- C2 (codec inverse) fails.  For every valid record with hash type
`HMACSHA3`, a key length of 128, 256 or 512 bits, positive iterations, any salt
and a derived key of that many bits, the decoder applied to the line the
generator's `Sprintf` produces for it (line feed removed) does not return the
components of the record: the generator writes the salt and the key in
hexadecimal and the decoder reads them as base64, so any derived key it returns
has one and a half times the length of the one written. -/
theorem codec_roundtrip_fails (bits iters : Int) (salt dk : Bytes)
    (hbits : bits = 128 ∨ bits = 256 ∨ bits = 512) (hiters : 0 < iters)
    (hlen : (dk.length : Int) = bits / 8) :
    parsePbdkf2Hash (fmtToken "HMACSHA3".toList bits iters salt dk).dropLast
        ≠ .ok "HMACSHA3".toList (bits / 8) iters salt dk ∧
    (∀ hashType keyLength it s k,
      parsePbdkf2Hash (fmtToken "HMACSHA3".toList bits iters salt dk).dropLast
          = .ok hashType keyLength it s k → 2 * k.length = 3 * dk.length) := by
  have _ := hiters
  have key : ∀ hashType keyLength it s k,
      parsePbdkf2Hash (fmtToken "HMACSHA3".toList bits iters salt dk).dropLast
          = .ok hashType keyLength it s k → 2 * k.length = 3 * dk.length := by
    intro hashType keyLength it s k hok
    rw [fmtToken_dropLast] at hok
    exact (parsePbdkf2Hash_hex_line "HMACSHA3".toList bits iters salt dk (by decide) (by decide)
      (no_tag_of_short (by decide)) hbits hashType keyLength it s k hok).2
  refine ⟨?_, key⟩
  intro hok
  have h2 := key _ _ _ _ _ hok
  have hpos : (0 : Int) < dk.length := by
    rw [hlen]; rcases hbits with rfl | rfl | rfl <;> decide
  omega

/-- The decoder at the line written for the record with 128 bits, one iteration, the salt 1, 2 and sixteen key bytes 7. -/
theorem codec_roundtrip_fails_witness :
    parsePbdkf2Hash (fmtToken "HMACSHA3".toList 128 1 [1, 2] (List.replicate 16 7)).dropLast
        ≠ .ok "HMACSHA3".toList (128 / 8) 1 [1, 2] (List.replicate 16 7) :=
  (codec_roundtrip_fails 128 1 [1, 2] (List.replicate 16 7) (by decide) (by decide)
    (by decide)).1

/-! ## The two workflows in sequence -/

theorem dropCR_of_not_mem {l : Str} (h : '\r' ∉ l) : dropCR l = l := by
  unfold dropCR
  split
  · rename_i hl
    exact absurd (List.mem_of_getLast?_eq_some hl) h
  · rfl

theorem bufioScanLines_single {l : Str} (hn : '\n' ∉ l) (hr : '\r' ∉ l) :
    bufioScanLines (l ++ ['\n']) = if byteLen l < maxScanTokenSize then [l] else [] := by
  have e : l ++ ['\n'] = l ++ '\n' :: [] := rfl
  have hl : fileLines (l ++ ['\n']) = [l] := by
    simp only [fileLines]
    rw [e, stringsSplit_append _ hn]
    simp [stringsSplit]
  rw [bufioScanLines, hl, scannerDelivers]
  by_cases h : byteLen l < maxScanTokenSize
  · simp [List.takeWhile, h, dropCR_of_not_mem hr]
  · simp [List.takeWhile, h]

theorem bufioScanLines_nil : bufioScanLines [] = [] := by
  decide

theorem fmtInt_plain (n : Int) : '\n' ∉ fmtInt n ∧ '\r' ∉ fmtInt n := by
  have hd := natDec_digits n.natAbs
  unfold fmtInt
  split
  · constructor <;>
    · intro hm
      simp only [List.mem_cons] at hm
      rcases hm with hm | hm
      · exact absurd hm (by decide)
      · exact absurd (hd _ hm) (by decide)
  · constructor <;>
    · intro hm
      exact absurd (hd _ hm) (by decide)

theorem fmtHex_plain (bs : Bytes) : '\n' ∉ fmtHex bs ∧ '\r' ∉ fmtHex bs :=
  ⟨fun h => (hexAlphabet_plain _ (fmtHex_chars bs _ h)).2.2.1 rfl,
   fun h => (hexAlphabet_plain _ (fmtHex_chars bs _ h)).2.1 rfl⟩

/-- The line of a generated record holds neither a line feed nor a carriage
return before its final line feed. -/
theorem fmtToken_body_plain (h : Str) (bits iters : Int) (salt dk : Bytes)
    (hn : '\n' ∉ h) (hr : '\r' ∉ h) :
    '\n' ∉ tag ++ h ++ ['+'] ++ fmtInt bits ++ [':'] ++ fmtInt iters ++ [':']
          ++ fmtHex salt ++ [':'] ++ fmtHex dk ∧
    '\r' ∉ tag ++ h ++ ['+'] ++ fmtInt bits ++ [':'] ++ fmtInt iters ++ [':']
          ++ fmtHex salt ++ [':'] ++ fmtHex dk := by
  have h1 := fmtInt_plain bits
  have h2 := fmtInt_plain iters
  have h3 := fmtHex_plain salt
  have h4 := fmtHex_plain dk
  have ht : '\n' ∉ tag ∧ '\r' ∉ tag := by decide
  constructor
  · simp [ht.1, hn, h1.1, h2.1, h3.1, h4.1]
  · simp [ht.2, hr, h1.2, h2.2, h3.2, h4.2]

/-- The generator with the default flags when the two entries of the first
attempt are equal. -/
theorem mktokenMain_accepted_first (kdf : KeyFn) (randRead : Nat → Bytes) (debug : Bool)
    (tokenFile : Str) (file : Str) (pass : Bytes) (stdinRest : List Bytes) :
    ∃ r, mktokenMain kdf randRead defaultFlags debug tokenFile false file
            (pass :: pass :: stdinRest) = some r ∧ r.reads = 2 ∧
      (kdf pass (randRead 16) 100000 64 = none → r.file = file) ∧
      (∀ dk, kdf pass (randRead 16) 100000 64 = some dk →
        r.term = .returned ∧
        r.file = file ++ fmtToken "HMACSHA3".toList 512 100000 (randRead 16) dk) := by
  simp only [mktokenMain, confirmLoop, readPassword, defaultFlags]
  simp only [show ((1 : Int) < 4) = True by decide, if_true,
    show ((1 : Int) + 1 ≠ 4) = True by decide, ne_eq, not_true_eq_false, if_false,
    Bool.false_eq_true]
  simp only [show (Int.toNat 16) = 16 by rfl]
  cases hk : kdf pass (randRead 16) 100000 64 with
  | none =>
    refine ⟨_, rfl, ?_, ?_, ?_⟩
    · rfl
    · intro _; rfl
    · intro dk h; cases h
  | some dk =>
    refine ⟨_, rfl, ?_, ?_, ?_⟩
    · rfl
    · intro h; cases h
    · intro dk' h
      simp only [Option.some.injEq] at h
      subst h
      exact ⟨rfl, rfl⟩

theorem sampleKdf_lengthLaw : sampleKdf.LengthLaw := by
  intro pw salt iter keyLength dk h
  unfold sampleKdf at h
  split at h
  · cases h
  · rename_i hpos
    simp only [Option.some.injEq] at h
    subst h
    simp only [List.length_replicate]
    omega

/-- C1 (round trip of the two workflows) fails.  For every passphrase, every
salt the random source delivers and the default configuration, once the
generator has appended its record to an empty store, the verifier run with the
same passphrase over that store does not report `Token matches!`: the generator
writes the 64-byte key as 128 hexadecimal digits, which the verifier decodes as
base64 into 96 bytes, never equal to a derived key of 64 bytes. -/
theorem generated_record_never_verifies (kdf : KeyFn) (hlaw : kdf.LengthLaw)
    (randRead : Nat → Bytes) (debug debug2 : Bool) (tokenFile : Str) (pass : Bytes)
    (stdinRest stdinRest2 : List Bytes) :
    ∃ r, mktokenMain kdf randRead defaultFlags debug tokenFile false []
            (pass :: pass :: stdinRest) = some r ∧
      (∀ dk, kdf pass (randRead 16) 100000 64 = some dk →
        r.term = .returned ∧
        r.file = fmtToken "HMACSHA3".toList 512 100000 (randRead 16) dk) ∧
      CmpOut.tokenMatches ∉
        (cmptokenMain kdf debug2 (some (bufioScanLines r.file)) (pass :: stdinRest2)).out := by
  obtain ⟨r, hr, _, hnone, hsome⟩ :=
    mktokenMain_accepted_first kdf randRead debug tokenFile [] pass stdinRest
  refine ⟨r, hr, ?_, ?_⟩
  · intro dk hdk
    simpa using hsome dk hdk
  · intro hm
    have hsm := cmptokenMain_out_no_match kdf debug2 _ _ hm
    simp only [readPassword] at hsm
    cases hk : kdf pass (randRead 16) 100000 64 with
    | none =>
      rw [hnone hk, bufioScanLines_nil] at hsm
      obtain ⟨l, hl, _⟩ := hsm
      simp at hl
    | some dk =>
      have hf := (hsome dk hk).2
      have hplain := fmtToken_body_plain "HMACSHA3".toList 512 100000 (randRead 16) dk
        (by decide) (by decide)
      rw [hf, List.nil_append, fmtToken, bufioScanLines_single hplain.1 hplain.2] at hsm
      obtain ⟨l, hl, _, ht, kl, it, s, k, hp, hkey⟩ := hsm
      split at hl
      case isFalse => simp at hl
      simp only [List.mem_singleton] at hl
      subst hl
      obtain ⟨hkl, hlen⟩ := parsePbdkf2Hash_hex_line "HMACSHA3".toList 512 100000
        (randRead 16) dk (by decide) (by decide) (no_tag_of_short (by decide))
        (Or.inr (Or.inr rfl)) ht kl it s k hp
      have hdk : (dk.length : Int) = 64 := hlaw _ _ _ _ _ hk
      cases hk2 : kdf pass s it kl with
      | none =>
        rw [hk2] at hkey
        simp only [Option.getD_none] at hkey
        subst hkey
        simp only [List.length_nil] at hlen
        omega
      | some k' =>
        rw [hk2] at hkey
        simp only [Option.getD_some] at hkey
        subst hkey
        have hk' : (k.length : Int) = kl := hlaw _ _ _ _ _ hk2
        rw [hkl] at hk'
        have h8 : ((512 : Int) / 8) = 64 := by decide
        omega

/-- The two workflows at the passphrase `p`, sixteen salt bytes 171 and the stand-in key function. -/
theorem generated_record_never_verifies_witness :
    ∃ r, mktokenMain sampleKdf (fun n => List.replicate n 171) defaultFlags false
            "tokens.lst".toList false [] ([112] :: [112] :: []) = some r ∧
      (∀ dk, sampleKdf [112] ((fun n => List.replicate n 171) 16) 100000 64 = some dk →
        r.term = .returned ∧
        r.file = fmtToken "HMACSHA3".toList 512 100000
          ((fun n => List.replicate n 171) 16) dk) ∧
      CmpOut.tokenMatches ∉
        (cmptokenMain sampleKdf false (some (bufioScanLines r.file)) ([112] :: [])).out :=
  generated_record_never_verifies sampleKdf sampleKdf_lengthLaw (fun n => List.replicate n 171)
    false false "tokens.lst".toList [112] [] []

/-! ## Totality of the generators -/

theorem legacyConfirmLoop_total (s : LegacyLoopState) (h : s.lcontrol = 1) :
    legacyConfirmLoop 3 s ≠ .outOfFuel := by
  simp only [legacyConfirmLoop, h]
  simp only [show ((1 : Int) < 4) = True by decide, if_true]
  split
  · split
    · simp only [show ((1 : Int) + 1 < 4) = True by decide, if_true]
      split
      · split
        · simp
        · simp
      · simp
    · simp
  · simp

/-- Every run of `cmd/mktoken` ends: the three iterations granted to the loop
of the model are enough for every terminal input. -/
theorem mktokenMain_isSome (kdf : KeyFn) (randRead : Nat → Bytes) (flags : Flags)
    (debug : Bool) (tokenFile : Str) (openFails : Bool) (file : Str) (stdin : List Bytes) :
    (mktokenMain kdf randRead flags debug tokenFile openFails file stdin).isSome = true := by
  simp only [mktokenMain]
  split
  · rename_i hfuel
    exact absurd hfuel (confirmLoop_total debug _ rfl)
  · rfl
  · split
    · rfl
    · split <;> rfl

/-- Every run of the generator of `src/main.go` ends. -/
theorem legacyMain_isSome (kdf : KeyFnX) (randRead : Nat → Bytes) (openFails : Bool)
    (file : Str) (stdin : List Bytes) :
    (legacyMain kdf randRead openFails file stdin).isSome = true := by
  simp only [legacyMain]
  split
  · rename_i hfuel
    exact absurd hfuel (legacyConfirmLoop_total _ rfl)
  · rfl
  · split
    · rfl
    · split <;> rfl

/-! ## Acceptance at the first and at the second attempt -/

/-- Equal entries at the first attempt leave the loop of `cmd/mktoken` with
the entry as passphrase. -/
theorem confirmLoop_accepts_first (debug : Bool) (out0 : List MkOut) (e : Bytes)
    (rest : List Bytes) :
    confirmLoop debug 3
        { iters := 1, input := [], input2 := [], stdin := e :: e :: rest, reads := 0,
          out := out0 }
      = .proceeds
        { iters := 2, input := e, input2 := e, stdin := rest, reads := 2,
          out := out0 ++ [.promptEnter, .promptReenter, .newline] ++ [.matchUpdating]
            ++ (if debug then [.dbgPassphrase e] else []) } := by
  simp [confirmLoop, readPassword]

/-- Equal entries at the second attempt, after a pair that differs, leave the
loop of `cmd/mktoken` with the second entry as passphrase. -/
theorem confirmLoop_accepts_second (debug : Bool) (out0 : List MkOut) (e1 c1 e2 : Bytes)
    (rest : List Bytes) (h1 : e1 ≠ c1) :
    confirmLoop debug 3
        { iters := 1, input := [], input2 := [], stdin := e1 :: c1 :: e2 :: e2 :: rest,
          reads := 0, out := out0 }
      = .proceeds
        { iters := 3, input := e2, input2 := e2, stdin := rest, reads := 4,
          out := out0 ++ [.promptEnter, .promptReenter, .newline, .doNotMatch]
            ++ [.promptEnter, .promptReenter, .newline] ++ [.matchUpdating]
            ++ (if debug then [.dbgPassphrase e2] else []) } := by
  simp [confirmLoop, readPassword, h1]

/-- Equal entries at the first attempt leave the loop of `src/main.go` with the
entry as passphrase. -/
theorem legacyConfirmLoop_accepts_first (e : Bytes) (rest : List Bytes) :
    legacyConfirmLoop 3
        { lcontrol := 1, pPhrase := [], stdin := e :: e :: rest, reads := 0, out := [] }
      = .proceeds
        { lcontrol := 2, pPhrase := e, stdin := rest, reads := 2,
          out := [.promptEnter, .promptReenter, .newline, .matchUpdating] } := by
  simp [legacyConfirmLoop, readPassword]

/-- Equal entries at the second attempt, after a pair that differs, leave the
loop of `src/main.go` with the second entry as passphrase. -/
theorem legacyConfirmLoop_accepts_second (e1 c1 e2 : Bytes) (rest : List Bytes)
    (h1 : e1 ≠ c1) :
    legacyConfirmLoop 3
        { lcontrol := 1, pPhrase := [], stdin := e1 :: c1 :: e2 :: e2 :: rest, reads := 0,
          out := [] }
      = .proceeds
        { lcontrol := 3, pPhrase := e2, stdin := rest, reads := 4,
          out := [.promptEnter, .promptReenter, .newline, .doNotMatch, .promptEnter,
            .promptReenter, .newline, .matchUpdating] } := by
  simp [legacyConfirmLoop, readPassword, h1]

end Mktoken
